import Mathlib

/-!
# TF-IDF tag extraction (`analyse/tag_extracker.go`)

A shallow embedding of the tag extractor of package `analyse` and the
properties of its ranked keyword list.

Modelling conventions.

* A finite `float64` value is the rational number it denotes (`ℚ`).  The
  quotient `v / total` of line 113 and the products of lines 119 and 121 are
  rounded as IEEE 754 binary64 rounds them: to the nearest value with a 53-bit
  significand, a tie going to the even one, with gradual underflow below
  `2 ^ (-1022)` (`round64`, `fdiv`, `fmul`).  The additions of lines 103 and
  110 act on integer-valued frequencies, which `float64` adds exactly below
  `2 ^ 53`, and are exact.  Overflow cannot arise from finite idf weights (a
  proportion is at most 1) and is not modelled, and neither are NaN or
  infinite idf weights.
* Go strings are Lean `String`s (sequences of code points, i.e. valid UTF-8).
  On such strings `utf8.RuneCountInString` is the number of code points and the
  byte-wise `<` of Go coincides with the lexicographic order on code points,
  which is `<` on `String` (`String.lt_iff_toList_lt`).
* A Go `map[string]V` is an association list with pairwise distinct keys
  (`GoMap V`).  The order in which a `for ... range m` loop visits the entries
  is unspecified in Go, so each of the three range loops of
  `ExtractTagsWithPOS` takes its visiting order from a `RangeOrder`.
* A run-time panic is the result `none`.
* `strings.ToLower` depends on the Unicode case tables; it is a parameter
  `ToLower` of the embedding, and every theorem holds for every such function.
* The loaders act on `ExtracterRefs`, the three pointers of a `TagExtracter`
  with `none` for nil; the constructors and dictionary readers they call are
  the fields of a `Library`.
-/

namespace posseg

/-- Modelled from the spec: package `posseg` is a separate package, outside
`tag_extracker.go`.  A `posseg.Segment` is one (text, part of speech) pair
produced by the segmenter, read through `Text()` and `Pos()`. -/
structure Segment where
  text : String
  pos : String
deriving DecidableEq, Repr

/-- Modelled from the spec: package `posseg` is a separate package, outside
`tag_extracker.go`.  `Cut(sentence, enablePOSTagging)` yields a finite,
single-pass sequence of pairs; the channel is modelled by the list of everything
it delivers. -/
structure Segmenter where
  Cut : String → Bool → List Segment

end posseg

namespace analyse

/-! ## The arithmetic of `float64` -/

/-- Rounding of a rational to the nearest integer, a tie going to the even one. -/
def roundHalfEven (x : ℚ) : ℤ :=
  if x - ⌊x⌋ < 1 / 2 then ⌊x⌋
  else if 1 / 2 < x - ⌊x⌋ then ⌊x⌋ + 1
  else if ⌊x⌋ % 2 = 0 then ⌊x⌋ else ⌊x⌋ + 1

/-- The binary logarithm of `n`, rounded down, by halving at most `fuel` times;
`log2Fuel n n` is `Nat.log2 n` (`log2Fuel_eq`). -/
def log2Fuel : Nat → Nat → Nat
  | 0, _ => 0
  | fuel + 1, n => if 2 ≤ n then log2Fuel fuel (n / 2) + 1 else 0

/-- The binary exponent of a rational `x ≠ 0`: the integer `e` with
`2 ^ e ≤ |x| < 2 ^ (e + 1)` (`two_zpow_binade_le`, `lt_two_zpow_binade_succ`). -/
def binade (x : ℚ) : ℤ :=
  if (2 : ℚ) ^ ((log2Fuel x.num.natAbs x.num.natAbs : ℤ) - (log2Fuel x.den x.den : ℤ)) ≤ |x| then
    (log2Fuel x.num.natAbs x.num.natAbs : ℤ) - (log2Fuel x.den x.den : ℤ)
  else (log2Fuel x.num.natAbs x.num.natAbs : ℤ) - (log2Fuel x.den x.den : ℤ) - 1

/-- The distance between neighbouring `float64` values around `x`: `2 ^ (e - 52)` in
the binade `e` of `x`, and `2 ^ (-1074)` throughout the subnormal range. -/
def ulp (x : ℚ) : ℚ := (2 : ℚ) ^ (max (binade x) (-1022) - 52)

/-- The `float64` value nearest to `x`, a tie going to the even significand. -/
def round64 (x : ℚ) : ℚ := (roundHalfEven (x / ulp x) : ℚ) * ulp x

/-- The `float64` product `a * b`. -/
def fmul (a b : ℚ) : ℚ := round64 (a * b)

/-- The `float64` quotient `a / b` for `b ≠ 0`; the code never divides by zero
(the normalisation loop does not run on an empty map). -/
def fdiv (a b : ℚ) : ℚ := round64 (a / b)

/-! ## Data model -/

/-- Type `Segment`: a word with its weight (lines 11-15); the weight is the
rational value of a `float64`, produced by the rounded product of `weighEntry`. -/
structure Segment where
  text : String
  weight : ℚ
deriving DecidableEq, Repr

/-- Method `Segment.Text` (lines 17-20). -/
def Segment.Text (s : Segment) : String := s.text

/-- Method `Segment.Weight` (lines 22-25). -/
def Segment.Weight (s : Segment) : ℚ := s.weight

/-- Type `Segments`: a slice of `Segment` (line 28). -/
abbrev Segments := List Segment

/-- Method `Segments.Len` (lines 30-32). -/
def Segments.Len (ss : Segments) : Nat := ss.length

/-- The body of `Segments.Less` on the two entries it reads (lines 35-39):
equal weights are decided by the text, otherwise by the weight. -/
def lessEntry (a b : Segment) : Bool :=
  if a.weight = b.weight then decide (a.text < b.text)
  else decide (a.weight < b.weight)

/-- Method `Segments.Less` (lines 34-40); an index out of range panics. -/
def Segments.Less (ss : Segments) (i j : Nat) : Option Bool :=
  match ss[i]?, ss[j]? with
  | some a, some b => some (lessEntry a b)
  | _, _ => none

/-- The `Less` of `sort.Reverse(ws)`: the arguments of `Less` exchanged. -/
def reverseLess (a b : Segment) : Bool := lessEntry b a

/-- Function `sort.Sort` for a comparator `less` on entries: the result is a
permutation in which no later entry is `less` than an earlier one.  For the
comparator used here such a permutation is unique (`sorted_perm_unique`), so the
sorting algorithm does not matter; insertion sort is taken. -/
def sortBy (less : Segment → Segment → Bool) (ws : Segments) : Segments :=
  ws.insertionSort (fun a b => less b a = false)

/-! ## Go maps -/

/-- A Go `map[string]V`: an association list; the keys are pairwise distinct in
every map built by `mapSet` from the empty map. -/
abbrev GoMap (V : Type) := List (String × V)

/-- The lookup `v, ok := m[k]`. -/
def mapGet {V : Type} : GoMap V → String → Option V
  | [], _ => none
  | (k', v) :: rest, k => if k' = k then some v else mapGet rest k

/-- The assignment `m[k] = v`: overwrite the entry of `k`, or add one. -/
def mapSet {V : Type} : GoMap V → String → V → GoMap V
  | [], k, v => [(k, v)]
  | (k', v') :: rest, k, v =>
    if k' = k then (k, v) :: rest else (k', v') :: mapSet rest k v

/-- The visiting orders of the three `range freqMap` loops (lines 109, 112, 117):
each function returns the entries of the map in the order the loop sees them. -/
structure RangeOrder where
  total : GoMap ℚ → List (String × ℚ)
  norm : GoMap ℚ → List (String × ℚ)
  weigh : GoMap ℚ → List (String × ℚ)

/-- A visiting order is admissible when every loop sees every entry exactly once. -/
def RangeOrder.Valid (o : RangeOrder) : Prop :=
  ∀ m : GoMap ℚ, (o.total m).Perm m ∧ (o.norm m).Perm m ∧ (o.weigh m).Perm m

/-- The visiting order that follows the association list. -/
def RangeOrder.stored : RangeOrder := ⟨id, id, id⟩

/-- The visiting order that runs through the association list backwards. -/
def RangeOrder.reversed : RangeOrder := ⟨List.reverse, List.reverse, List.reverse⟩

/-! ## Collaborators -/

/-- Modelled from the spec: type `Idf` is declared outside `tag_extracker.go`.  It
is a mapping from term to idf weight together with the median weight. -/
structure Idf where
  freqMap : GoMap ℚ
  median : ℚ

/-- Modelled from the spec: `Frequency(term) -> (weight, found)`. -/
def Idf.Frequency (i : Idf) (key : String) : Option ℚ := mapGet i.freqMap key

/-- Modelled from the spec: type `StopWord` is declared outside
`tag_extracker.go`.  It is a set of strings, with no convention on their case. -/
structure StopWord where
  stopWordMap : List String

/-- Modelled from the spec: `IsStopWord(word) -> bool`, the membership test. -/
def StopWord.IsStopWord (s : StopWord) (word : String) : Bool :=
  decide (word ∈ s.stopWordMap)

/-- Type `TagExtracter` (lines 46-51), with all three references set. -/
structure TagExtracter where
  seg : posseg.Segmenter
  idf : Idf
  stopWord : StopWord

/-! ## String functions of the standard library -/

/-- Function `unicode.IsSpace`: the code points with the White_Space property. -/
def isSpace (c : Char) : Bool :=
  let n := c.toNat
  (0x09 ≤ n && n ≤ 0x0D) || n == 0x20 || n == 0x85 || n == 0xA0 || n == 0x1680 ||
  (0x2000 ≤ n && n ≤ 0x200A) || n == 0x2028 || n == 0x2029 || n == 0x202F ||
  n == 0x205F || n == 0x3000

/-- Function `strings.TrimSpace`: leading and trailing white space removed. -/
def TrimSpace (s : String) : String :=
  ⟨((s.data.dropWhile isSpace).reverse.dropWhile isSpace).reverse⟩

/-- Function `utf8.RuneCountInString`: the number of code points. -/
def RuneCountInString (s : String) : Nat := s.length

/-- Lower-casing of the ASCII letters only; it agrees with `strings.ToLower` on
ASCII strings and instantiates the parameter `ToLower` in examples. -/
def asciiLower (s : String) : String := ⟨s.data.map Char.toLower⟩

/-! ## `ExtractTagsWithPOS` -/

/-- Lines 79-82: the keys of `allowPOS` entered into a map. -/
def allowPOSMapOf (allowPOS : List String) : GoMap Nat :=
  allowPOS.foldl (fun m k => mapSet m k 1) []

/-- Lines 102-106: one more occurrence of `word` entered into the frequency map.  The
frequencies are natural numbers, and `float64` adds 1 to a natural number below
`2 ^ 53` exactly (`round64_natCast`), so the sum is not rounded. -/
def addWord (freqMap : GoMap ℚ) (word : String) : GoMap ℚ :=
  match mapGet freqMap word with
  | some f => mapSet freqMap word (f + 1)
  | none => mapSet freqMap word 1

/-- One iteration of the loop over the segmenter output (lines 85-106). -/
def countWord (ToLower : String → String) (t : TagExtracter) (allowPOS : List String)
    (allowPOSMap : GoMap Nat) (freqMap : GoMap ℚ) (w : posseg.Segment) : GoMap ℚ :=
  if allowPOS.length > 0 && (mapGet allowPOSMap w.pos).isNone then freqMap
  else
    let word := TrimSpace w.text
    if RuneCountInString word < 2 then freqMap
    else if t.stopWord.IsStopWord (ToLower word) then freqMap
    else addWord freqMap word

/-- Lines 76-107: the frequency map after the whole segmenter output is consumed. -/
def countFreq (ToLower : String → String) (t : TagExtracter) (allowPOS : List String)
    (pairs : List posseg.Segment) : GoMap ℚ :=
  pairs.foldl (countWord ToLower t allowPOS (allowPOSMapOf allowPOS)) []

/-- Lines 108-111: the sum of the frequencies, in visiting order; a sum of natural
numbers, exact in `float64` up to `2 ^ 53` (`round64_natCast`). -/
def sumFreq (visit : List (String × ℚ)) : ℚ :=
  visit.foldl (fun total e => total + e.2) 0

/-- Lines 112-114: every visited key is overwritten by the `float64` quotient of
its value by `total`. -/
def normalize (freqMap : GoMap ℚ) (visit : List (String × ℚ)) (total : ℚ) : GoMap ℚ :=
  visit.foldl (fun m e => mapSet m e.1 (fdiv e.2 total)) freqMap

/-- Lines 118-122: the weighted entry of one term, a `float64` product. -/
def weighEntry (t : TagExtracter) (k : String) (v : ℚ) : Segment :=
  match t.idf.Frequency k with
  | some freq => { text := k, weight := fmul freq v }
  | none => { text := k, weight := fmul t.idf.median v }

/-- Lines 115-124: the entries appended to `ws` in visiting order. -/
def weighAll (t : TagExtracter) (visit : List (String × ℚ)) : Segments :=
  visit.foldl (fun ws e => ws ++ [weighEntry t e.1 e.2]) []

/-- The slice expression `ws[:hi]`; it panics unless `0 ≤ hi ≤ cap(ws)`.  It is
only evaluated with `hi < len(ws)`, so the capacity is replaced by the length. -/
def sliceTo (ws : Segments) (hi : Int) : Option Segments :=
  if 0 ≤ hi ∧ hi ≤ (ws.length : Int) then some (ws.take hi.toNat) else none

/-- Lines 126-131: the truncation to `topK` entries. -/
def truncate (ws : Segments) (topK : Int) : Option Segments :=
  if (ws.length : Int) > topK then sliceTo ws topK else some ws

/-- Lines 76-131 on the sequence `pairs` delivered by the segmenter. -/
def extractFromPairs (ToLower : String → String) (o : RangeOrder) (t : TagExtracter)
    (pairs : List posseg.Segment) (topK : Int) (allowPOS : List String) :
    Option Segments :=
  let freqMap := countFreq ToLower t allowPOS pairs
  let total := sumFreq (o.total freqMap)
  let freqMap := normalize freqMap (o.norm freqMap) total
  let ws := weighAll t (o.weigh freqMap)
  let ws := sortBy reverseLess ws
  truncate ws topK

/-- Method `ExtractTagsWithPOS` (lines 75-132). -/
def ExtractTagsWithPOS (ToLower : String → String) (o : RangeOrder) (t : TagExtracter)
    (sentence : String) (topK : Int) (allowPOS : List String) : Option Segments :=
  extractFromPairs ToLower o t (t.seg.Cut sentence true) topK allowPOS

/-- Modelled from the spec: the package-level variable `defaultAllowPOS` is declared
outside `tag_extracker.go`.  The spec gives `ExtractTags` no part-of-speech
restriction ("empty/absent means allow all tags"), so it is the empty list. -/
def defaultAllowPOS : List String := []

/-- Method `ExtractTags` (lines 135-138). -/
def ExtractTags (ToLower : String → String) (o : RangeOrder) (t : TagExtracter)
    (sentence : String) (topK : Int) : Option Segments :=
  ExtractTagsWithPOS ToLower o t sentence topK defaultAllowPOS

/-! ## The filters and the ranking, as the specification words them -/

/-- The filters of one pair: the trimmed word when the pair passes the
part-of-speech, length and stop-word filters. -/
def survives (ToLower : String → String) (t : TagExtracter) (allowPOS : List String)
    (w : posseg.Segment) : Option String :=
  if allowPOS ≠ [] ∧ w.pos ∉ allowPOS then none
  else if (TrimSpace w.text).length < 2 then none
  else if ToLower (TrimSpace w.text) ∈ t.stopWord.stopWordMap then none
  else some (TrimSpace w.text)

/-- The surviving pairs, each as its trimmed word, in segmenter order. -/
def survivors (ToLower : String → String) (t : TagExtracter) (allowPOS : List String)
    (pairs : List posseg.Segment) : List String :=
  pairs.filterMap (survives ToLower t allowPOS)

/-- The frequency proportion `count(term) / total` among the surviving words, as
the `float64` quotient that line 113 stores. -/
def proportion (ws : List String) (term : String) : ℚ :=
  fdiv (ws.count term : ℚ) (ws.length : ℚ)

/-- The weighted entries of the distinct surviving terms, ranked. -/
def ranked (t : TagExtracter) (ws : List String) : Segments :=
  sortBy reverseLess (ws.dedup.map (fun k => weighEntry t k (proportion ws k)))

/-- The pair compared by `Less`, in the lexicographic order of weight, then text. -/
def rankKey (a : Segment) : ℚ ×ₗ String := toLex (a.weight, a.text)

/-! ## A worked example -/

/-- The sentence of the worked example. -/
def demoSentence : String := "aa bb aa the c dd"

/-- The pairs delivered for `demoSentence`: "aa" occurs twice, " bb " carries
surrounding blanks, "the" is a stop word and "c" is too short. -/
def demoPairs : List posseg.Segment :=
  [⟨"aa", "n"⟩, ⟨" bb ", "v"⟩, ⟨"aa", "n"⟩, ⟨"the", "r"⟩, ⟨"c", "n"⟩, ⟨"dd", "n"⟩]

/-- An extractor whose segmenter knows `demoSentence` only, whose idf table holds
"aa" with weight 3 and has median 2, and whose stop words are "the". -/
def demoExtracter : TagExtracter :=
  { seg := ⟨fun sentence _ => if sentence = demoSentence then demoPairs else []⟩
    idf := ⟨[("aa", 3)], 2⟩
    stopWord := ⟨["the"]⟩ }

/-- An extractor whose stop-word set holds the upper-case entry "AB" and whose
segmenter delivers the single word "AB"; the idf table is empty with median 1. -/
def upperStopExtracter : TagExtracter :=
  { seg := ⟨fun _ _ => [⟨"AB", "n"⟩]⟩
    idf := ⟨[], 1⟩
    stopWord := ⟨["AB"]⟩ }

/-- An extractor whose idf table holds "aa" with the negative weight -1; its
segmenter delivers the single word "aa" and its stop-word set is empty. -/
def negativeIdfExtracter : TagExtracter :=
  { seg := ⟨fun _ _ => [⟨"aa", "n"⟩]⟩
    idf := ⟨[("aa", -1)], 1⟩
    stopWord := ⟨[]⟩ }

/-- An extractor whose segmenter delivers the word "测试" five times, whose idf
table holds "测试" with weight 2 and whose stop-word set is empty. -/
def repeatedWordExtracter : TagExtracter :=
  { seg := ⟨fun _ _ => List.replicate 5 ⟨"测试", "n"⟩⟩
    idf := ⟨[("测试", 2)], 1⟩
    stopWord := ⟨[]⟩ }

/-- An extractor whose segmenter delivers "Hello", "hello", "Hello"; the idf table
is empty with median 3 and the stop-word set holds "the". -/
def letterCaseExtracter : TagExtracter :=
  { seg := ⟨fun _ _ => [⟨"Hello", "n"⟩, ⟨"hello", "n"⟩, ⟨"Hello", "n"⟩]⟩
    idf := ⟨[], 3⟩
    stopWord := ⟨["the"]⟩ }

/-- An extractor whose segmenter delivers five different words; the idf table holds
"aa" with weight 3 and has median 1, and the stop-word set is empty.  The weight
of "aa" is the rounded product of 3 and the rounded quotient 1/5. -/
def roundingExtracter : TagExtracter :=
  { seg := ⟨fun _ _ => [⟨"aa", "n"⟩, ⟨"bb", "n"⟩, ⟨"cc", "n"⟩, ⟨"dd", "n"⟩, ⟨"ee", "n"⟩]⟩
    idf := ⟨[("aa", 3)], 1⟩
    stopWord := ⟨[]⟩ }

/-- An extractor whose idf table is empty and has the least positive `float64`,
`2 ^ (-1074)`, as its median; its segmenter delivers "aa" and "bb". -/
def tinyMedianExtracter : TagExtracter :=
  { seg := ⟨fun _ _ => [⟨"aa", "n"⟩, ⟨"bb", "n"⟩]⟩
    idf := ⟨[], (2 : ℚ) ^ (-1074 : ℤ)⟩
    stopWord := ⟨[]⟩ }

/-- An extractor whose segmenter delivers ten different words; the idf table is
empty with median 1 and the stop-word set is empty. -/
def tenWordsExtracter : TagExtracter :=
  { seg := ⟨fun _ _ => [⟨"w0", "n"⟩, ⟨"w1", "n"⟩, ⟨"w2", "n"⟩, ⟨"w3", "n"⟩, ⟨"w4", "n"⟩,
      ⟨"w5", "n"⟩, ⟨"w6", "n"⟩, ⟨"w7", "n"⟩, ⟨"w8", "n"⟩, ⟨"w9", "n"⟩]⟩
    idf := ⟨[], 1⟩
    stopWord := ⟨[]⟩ }

/-! ## The intermediate values of `ExtractTagsWithPOS` -/

/-- The value of `total` after the loop of lines 108-111. -/
def totalFreq (ToLower : String → String) (o : RangeOrder) (t : TagExtracter)
    (pairs : List posseg.Segment) (allowPOS : List String) : ℚ :=
  sumFreq (o.total (countFreq ToLower t allowPOS pairs))

/-- The entries visited by the normalisation loop of lines 112-114, one division by
`total` each. -/
def normVisits (ToLower : String → String) (o : RangeOrder) (t : TagExtracter)
    (pairs : List posseg.Segment) (allowPOS : List String) : List (String × ℚ) :=
  o.norm (countFreq ToLower t allowPOS pairs)

/-- The frequency map after the normalisation loop of lines 112-114. -/
def normalizedFreq (ToLower : String → String) (o : RangeOrder) (t : TagExtracter)
    (pairs : List posseg.Segment) (allowPOS : List String) : GoMap ℚ :=
  normalize (countFreq ToLower t allowPOS pairs) (normVisits ToLower o t pairs allowPOS)
    (totalFreq ToLower o t pairs allowPOS)

/-- The idf weight that `ExtractTagsWithPOS` multiplies with the proportion of a
term (lines 118-122): the table's weight when the term is found, else the median. -/
def idfOrMedian (t : TagExtracter) (k : String) : ℚ :=
  match t.idf.Frequency k with
  | some freq => freq
  | none => t.idf.median

/-! ## The loaders -/

/-- The three references held by a `TagExtracter` at any time (lines 46-51); `none`
is the nil pointer, as in an extractor on which no loader has been called. -/
structure ExtracterRefs where
  seg : Option posseg.Segmenter
  idf : Option Idf
  stopWord : Option StopWord

/-- The extractor that `ExtractTagsWithPOS` runs on once all three references are
set; with a nil reference there is none. -/
def ExtracterRefs.initialized (r : ExtracterRefs) : Option TagExtracter :=
  match r.seg, r.idf, r.stopWord with
  | some seg, some idf, some stopWord => some ⟨seg, idf, stopWord⟩
  | _, _, _ => none

/-- Modelled from the spec: the constructors and dictionary readers that the
loaders call are declared outside `tag_extracker.go`.  `NewStopWord()` and
`NewIdf()` give a fresh table, `new(posseg.Segmenter)` a fresh segmenter, and each
`LoadDictionary`/`loadDictionary` reads the named source into the table it is
called on and returns an error or nil (`none`). -/
structure Library where
  NewStopWord : StopWord
  NewIdf : Idf
  newSegmenter : posseg.Segmenter
  segLoadDictionary : posseg.Segmenter → String → posseg.Segmenter × Option String
  idfLoadDictionary : Idf → String → Idf × Option String
  stopLoadDictionary : StopWord → String → StopWord × Option String

/-- Method `LoadDictionary` (lines 53-58): the references after the call and the
returned error. -/
def LoadDictionary (lib : Library) (t : ExtracterRefs) (fileName : String) :
    ExtracterRefs × Option String :=
  let t := { t with stopWord := some lib.NewStopWord }
  let loaded := lib.segLoadDictionary lib.newSegmenter fileName
  ({ t with seg := some loaded.1 }, loaded.2)

/-- Method `LoadIdf` (lines 60-64): the references after the call and the returned
error. -/
def LoadIdf (lib : Library) (t : ExtracterRefs) (fileName : String) :
    ExtracterRefs × Option String :=
  let loaded := lib.idfLoadDictionary lib.NewIdf fileName
  ({ t with idf := some loaded.1 }, loaded.2)

/-- Method `LoadStopWords` (lines 66-70): the references after the call and the
returned error. -/
def LoadStopWords (lib : Library) (t : ExtracterRefs) (fileName : String) :
    ExtracterRefs × Option String :=
  let loaded := lib.stopLoadDictionary lib.NewStopWord fileName
  ({ t with stopWord := some loaded.1 }, loaded.2)

/-! ## Lemmas on `float64` rounding -/

theorem log2Fuel_eq (f n : Nat) (h : n ≤ f) : log2Fuel f n = Nat.log2 n := by
  induction f generalizing n with
  | zero =>
    have : n = 0 := by omega
    subst this
    simp [log2Fuel, Nat.log2_zero]
  | succ f ih =>
    rw [log2Fuel, Nat.log2]
    split_ifs with h2
    · rw [ih (n / 2) (by omega)]
    · rfl

theorem floor_le_roundHalfEven (x : ℚ) : ⌊x⌋ ≤ roundHalfEven x := by
  unfold roundHalfEven
  split_ifs <;> omega

theorem roundHalfEven_le (x : ℚ) : roundHalfEven x ≤ ⌊x⌋ + 1 := by
  unfold roundHalfEven
  split_ifs <;> omega

theorem roundHalfEven_intCast (n : ℤ) : roundHalfEven (n : ℚ) = n := by
  unfold roundHalfEven
  simp

theorem roundHalfEven_le_of_le (x : ℚ) (n : ℤ) (h : x ≤ (n : ℚ)) : roundHalfEven x ≤ n := by
  rcases eq_or_lt_of_le h with he | hl
  · rw [he, roundHalfEven_intCast]
  · have hf : ⌊x⌋ < n := Int.floor_lt.2 hl
    have := roundHalfEven_le x
    omega

theorem roundHalfEven_sub_le (x : ℚ) : |(roundHalfEven x : ℚ) - x| ≤ 1 / 2 := by
  have h1 : (⌊x⌋ : ℚ) ≤ x := Int.floor_le x
  have h2 : x < (⌊x⌋ : ℚ) + 1 := Int.lt_floor_add_one x
  unfold roundHalfEven
  rw [abs_le]
  split_ifs with ha hb hc
  · constructor <;> linarith
  · push_cast; constructor <;> linarith
  · have : x - ⌊x⌋ = 1 / 2 := le_antisymm (not_lt.1 hb) (not_lt.1 ha)
    constructor <;> linarith
  · have : x - ⌊x⌋ = 1 / 2 := le_antisymm (not_lt.1 hb) (not_lt.1 ha)
    push_cast; constructor <;> linarith

theorem ulp_pos (x : ℚ) : 0 < ulp x := by
  unfold ulp
  exact zpow_pos (by norm_num) _

theorem abs_eq_natAbs_div (x : ℚ) : |x| = (x.num.natAbs : ℚ) / (x.den : ℚ) := by
  rw [Rat.abs_def, Rat.divInt_eq_div]
  simp [Nat.cast_natAbs]

theorem two_zpow_binade_le (x : ℚ) (hx : x ≠ 0) : (2 : ℚ) ^ binade x ≤ |x| := by
  unfold binade
  rw [log2Fuel_eq _ _ le_rfl, log2Fuel_eq _ _ le_rfl]
  split_ifs with h
  · exact h
  · have hn : x.num.natAbs ≠ 0 := by
      simpa using Rat.num_ne_zero.2 hx
    have hd : x.den ≠ 0 := x.den_nz
    have h1 : 2 ^ Nat.log2 x.num.natAbs ≤ x.num.natAbs := Nat.log2_self_le hn
    have h2 : x.den < 2 ^ (Nat.log2 x.den + 1) := Nat.lt_log2_self
    rw [abs_eq_natAbs_div, le_div_iff₀ (by exact_mod_cast Nat.pos_of_ne_zero hd)]
    have h1' : ((2 : ℚ) ^ Nat.log2 x.num.natAbs) ≤ (x.num.natAbs : ℚ) := by exact_mod_cast h1
    have h2' : (x.den : ℚ) ≤ (2 : ℚ) ^ (Nat.log2 x.den + 1) := by exact_mod_cast le_of_lt h2
    calc (2 : ℚ) ^ ((Nat.log2 x.num.natAbs : ℤ) - (Nat.log2 x.den : ℤ) - 1) * (x.den : ℚ)
        ≤ (2 : ℚ) ^ ((Nat.log2 x.num.natAbs : ℤ) - (Nat.log2 x.den : ℤ) - 1) *
            (2 : ℚ) ^ (Nat.log2 x.den + 1) :=
          mul_le_mul_of_nonneg_left h2' (le_of_lt (zpow_pos (by norm_num) _))
      _ = (2 : ℚ) ^ Nat.log2 x.num.natAbs := by
          rw [← zpow_natCast, ← zpow_natCast, ← zpow_add₀ (by norm_num)]
          congr 1
          push_cast
          ring
      _ ≤ (x.num.natAbs : ℚ) := h1'

theorem lt_two_zpow_binade_succ (x : ℚ) : |x| < (2 : ℚ) ^ (binade x + 1) := by
  have hd : x.den ≠ 0 := x.den_nz
  unfold binade
  rw [log2Fuel_eq _ _ le_rfl, log2Fuel_eq _ _ le_rfl]
  split_ifs with h
  · have h1 : x.num.natAbs < 2 ^ (Nat.log2 x.num.natAbs + 1) := Nat.lt_log2_self
    have h2 : 2 ^ Nat.log2 x.den ≤ x.den := Nat.log2_self_le hd
    have h1' : (x.num.natAbs : ℚ) < (2 : ℚ) ^ (Nat.log2 x.num.natAbs + 1) := by exact_mod_cast h1
    have h2' : (2 : ℚ) ^ Nat.log2 x.den ≤ (x.den : ℚ) := by exact_mod_cast h2
    rw [abs_eq_natAbs_div, div_lt_iff₀ (by exact_mod_cast Nat.pos_of_ne_zero hd)]
    calc (x.num.natAbs : ℚ) < (2 : ℚ) ^ (Nat.log2 x.num.natAbs + 1) := h1'
      _ = (2 : ℚ) ^ ((Nat.log2 x.num.natAbs : ℤ) - (Nat.log2 x.den : ℤ) + 1) *
            (2 : ℚ) ^ Nat.log2 x.den := by
          rw [← zpow_natCast, ← zpow_natCast, ← zpow_add₀ (by norm_num)]
          congr 1
          push_cast
          ring
      _ ≤ (2 : ℚ) ^ ((Nat.log2 x.num.natAbs : ℤ) - (Nat.log2 x.den : ℤ) + 1) * (x.den : ℚ) :=
          mul_le_mul_of_nonneg_left h2' (le_of_lt (zpow_pos (by norm_num) _))
  · have : (Nat.log2 x.num.natAbs : ℤ) - (Nat.log2 x.den : ℤ) - 1 + 1 =
        (Nat.log2 x.num.natAbs : ℤ) - (Nat.log2 x.den : ℤ) := by ring
    rw [this]
    exact not_le.1 h

theorem round64_nonneg (x : ℚ) (hx : 0 ≤ x) : 0 ≤ round64 x := by
  unfold round64
  have hq : 0 ≤ x / ulp x := div_nonneg hx (le_of_lt (ulp_pos x))
  have hf : (0 : ℤ) ≤ ⌊x / ulp x⌋ := Int.floor_nonneg.2 hq
  have hr : (0 : ℤ) ≤ roundHalfEven (x / ulp x) := le_trans hf (floor_le_roundHalfEven _)
  exact mul_nonneg (by exact_mod_cast hr) (le_of_lt (ulp_pos x))

theorem ulp_le_self (x : ℚ) (hx : (2 : ℚ) ^ (-1074 : ℤ) ≤ x) : ulp x ≤ x := by
  have hpos : 0 < x := lt_of_lt_of_le (zpow_pos (by norm_num) _) hx
  unfold ulp
  rcases le_total (binade x) (-1022) with h | h
  · rw [max_eq_right h]
    have : (-1022 : ℤ) - 52 = -1074 := by norm_num
    rw [this]
    exact hx
  · rw [max_eq_left h]
    have h1 : (2 : ℚ) ^ (binade x - 52) ≤ (2 : ℚ) ^ binade x :=
      zpow_le_zpow_right₀ (by norm_num) (by omega)
    have h2 := two_zpow_binade_le x (ne_of_gt hpos)
    rw [abs_of_pos hpos] at h2
    exact le_trans h1 h2

theorem round64_pos (x : ℚ) (hx : (2 : ℚ) ^ (-1074 : ℤ) ≤ x) : 0 < round64 x := by
  unfold round64
  have hq : 1 ≤ x / ulp x := (one_le_div (ulp_pos x)).2 (ulp_le_self x hx)
  have hf : (1 : ℤ) ≤ ⌊x / ulp x⌋ := Int.le_floor.2 (by exact_mod_cast hq)
  have hr : (1 : ℤ) ≤ roundHalfEven (x / ulp x) := le_trans hf (floor_le_roundHalfEven _)
  have hr' : (0 : ℚ) < (roundHalfEven (x / ulp x) : ℚ) := by exact_mod_cast hr
  exact mul_pos hr' (ulp_pos x)

theorem round64_le_one (x : ℚ) (hx0 : 0 < x) (hx1 : x ≤ 1) : round64 x ≤ 1 := by
  have hb : binade x ≤ 0 := by
    by_contra hc
    have h2 := two_zpow_binade_le x (ne_of_gt hx0)
    rw [abs_of_pos hx0] at h2
    have h3 : (2 : ℚ) ^ (1 : ℤ) ≤ (2 : ℚ) ^ binade x :=
      zpow_le_zpow_right₀ (by norm_num) (by omega)
    have h4 : (2 : ℚ) ^ (1 : ℤ) ≤ 1 := le_trans (le_trans h3 h2) hx1
    norm_num at h4
  have hk : max (binade x) (-1022) - 52 ≤ 0 := by
    have : max (binade x) (-1022) ≤ 0 := max_le hb (by norm_num)
    omega
  obtain ⟨n, hn⟩ : ∃ n : ℕ, -(max (binade x) (-1022) - 52) = (n : ℤ) :=
    Int.eq_ofNat_of_zero_le (by omega)
  have hu : ulp x = ((2 : ℚ) ^ n)⁻¹ := by
    unfold ulp
    rw [← zpow_natCast, ← hn, zpow_neg, inv_inv]
  unfold round64
  have hle : x / ulp x ≤ (((2 ^ n : ℕ) : ℤ) : ℚ) := by
    rw [hu, div_inv_eq_mul]
    push_cast
    calc x * 2 ^ n ≤ 1 * 2 ^ n := mul_le_mul_of_nonneg_right hx1 (by positivity)
      _ = 2 ^ n := one_mul _
  have hr := roundHalfEven_le_of_le _ _ hle
  have hr' : (roundHalfEven (x / ulp x) : ℚ) ≤ (2 : ℚ) ^ n := by exact_mod_cast hr
  calc (roundHalfEven (x / ulp x) : ℚ) * ulp x ≤ (2 : ℚ) ^ n * ulp x :=
        mul_le_mul_of_nonneg_right hr' (le_of_lt (ulp_pos x))
    _ = 1 := by rw [hu]; field_simp

theorem round64_sub_le (x : ℚ) : |round64 x - x| ≤ ulp x / 2 := by
  unfold round64
  have h := roundHalfEven_sub_le (x / ulp x)
  have hu := ulp_pos x
  have : (roundHalfEven (x / ulp x) : ℚ) * ulp x - x =
      ((roundHalfEven (x / ulp x) : ℚ) - x / ulp x) * ulp x := by
    field_simp
  rw [this, abs_mul, abs_of_pos hu]
  calc |(roundHalfEven (x / ulp x) : ℚ) - x / ulp x| * ulp x ≤ 1 / 2 * ulp x :=
        mul_le_mul_of_nonneg_right h (le_of_lt hu)
    _ = ulp x / 2 := by ring

theorem round64_zero : round64 0 = 0 := by
  unfold round64
  rw [zero_div]
  have : roundHalfEven 0 = 0 := roundHalfEven_intCast 0
  rw [this]
  simp

theorem fmul_nonneg (a b : ℚ) (ha : 0 ≤ a) (hb : 0 ≤ b) : 0 ≤ fmul a b :=
  round64_nonneg _ (mul_nonneg ha hb)

theorem fdiv_nonneg (a b : ℚ) (ha : 0 ≤ a) (hb : 0 ≤ b) : 0 ≤ fdiv a b :=
  round64_nonneg _ (div_nonneg ha hb)

theorem round64_of_int_div (x : ℚ) (m : ℤ) (h : x / ulp x = (m : ℚ)) : round64 x = x := by
  unfold round64
  rw [h, roundHalfEven_intCast, ← h]
  field_simp [ne_of_gt (ulp_pos x)]

/-- Natural numbers up to `2 ^ 53` are `float64` values, so the `float64` sum of two
frequency counts is their exact sum as long as it does not exceed `2 ^ 53`. -/
theorem round64_natCast (n : ℕ) (hn : n ≤ 2 ^ 53) : round64 (n : ℚ) = (n : ℚ) := by
  rcases Nat.eq_zero_or_pos n with h0 | hpos
  · rw [h0, Nat.cast_zero, round64_zero]
  have hx1 : (1 : ℚ) ≤ (n : ℚ) := by exact_mod_cast hpos
  have hx0 : (0 : ℚ) < (n : ℚ) := lt_of_lt_of_le one_pos hx1
  have hxu : (n : ℚ) ≤ (2 : ℚ) ^ (53 : ℤ) := by
    have : (n : ℚ) ≤ (2 : ℚ) ^ (53 : ℕ) := by exact_mod_cast hn
    rwa [← zpow_natCast] at this
  have hlow := two_zpow_binade_le (n : ℚ) (ne_of_gt hx0)
  have hup := lt_two_zpow_binade_succ (n : ℚ)
  rw [abs_of_pos hx0] at hlow hup
  have he0 : 0 ≤ binade (n : ℚ) := by
    by_contra hc
    have h1 : (2 : ℚ) ^ (binade (n : ℚ) + 1) ≤ (2 : ℚ) ^ (0 : ℤ) :=
      zpow_le_zpow_right₀ (by norm_num) (by omega)
    rw [zpow_zero] at h1
    exact absurd (lt_of_lt_of_le hup h1) (not_lt.2 hx1)
  have he53 : binade (n : ℚ) ≤ 53 := by
    by_contra hc
    have h1 : (2 : ℚ) ^ (54 : ℤ) ≤ (2 : ℚ) ^ binade (n : ℚ) :=
      zpow_le_zpow_right₀ (by norm_num) (by omega)
    have h2 : (2 : ℚ) ^ (54 : ℤ) ≤ (2 : ℚ) ^ (53 : ℤ) := le_trans (le_trans h1 hlow) hxu
    norm_num at h2
  have hulp : ulp (n : ℚ) = (2 : ℚ) ^ (binade (n : ℚ) - 52) := by
    unfold ulp
    rw [max_eq_left (by omega)]
  rcases le_or_lt (binade (n : ℚ)) 52 with h52 | h52
  · obtain ⟨m, hm⟩ : ∃ m : ℕ, 52 - binade (n : ℚ) = (m : ℤ) :=
      Int.eq_ofNat_of_zero_le (by omega)
    apply round64_of_int_div (n : ℚ) ((n * 2 ^ m : ℕ) : ℤ)
    have hb : binade (n : ℚ) - 52 = -(m : ℤ) := by omega
    rw [hulp, hb, zpow_neg, zpow_natCast, div_inv_eq_mul]
    push_cast
    ring
  · have hb : binade (n : ℚ) = 53 := by omega
    have hx : (n : ℚ) = (2 : ℚ) ^ (53 : ℤ) := by
      apply le_antisymm hxu
      rw [hb] at hlow
      exact hlow
    apply round64_of_int_div (n : ℚ) ((2 ^ 52 : ℕ) : ℤ)
    rw [hulp, hb, hx]
    norm_num

/-! ## Lemmas on Go maps -/

theorem mapGet_mapSet {V : Type} (m : GoMap V) (k k' : String) (v : V) :
    mapGet (mapSet m k v) k' = if k = k' then some v else mapGet m k' := by
  induction m with
  | nil => simp [mapSet, mapGet]
  | cons e rest ih =>
    obtain ⟨a, b⟩ := e
    by_cases h : a = k
    · subst h
      by_cases h' : a = k' <;> simp [mapSet, mapGet, h']
    · by_cases h' : a = k'
      · subst h'
        simp [mapSet, mapGet, h, Ne.symm h]
      · simp [mapSet, mapGet, h, h', ih]

theorem mapGet_eq_none_iff {V : Type} (m : GoMap V) (k : String) :
    mapGet m k = none ↔ k ∉ m.map Prod.fst := by
  induction m with
  | nil => simp [mapGet]
  | cons e rest ih =>
    obtain ⟨a, b⟩ := e
    by_cases h : a = k
    · simp [mapGet, h]
    · simp [mapGet, h, ih, Ne.symm h]

theorem mapSet_keys_of_mem {V : Type} (m : GoMap V) (k : String) (v : V)
    (h : k ∈ m.map Prod.fst) : (mapSet m k v).map Prod.fst = m.map Prod.fst := by
  induction m with
  | nil => simp at h
  | cons e rest ih =>
    obtain ⟨a, b⟩ := e
    by_cases hk : a = k
    · simp [mapSet, hk]
    · have : k ∈ rest.map Prod.fst := by
        simp only [List.map_cons, List.mem_cons] at h
        rcases h with h | h
        · exact absurd h.symm hk
        · exact h
      simp [mapSet, hk, ih this]

theorem mapSet_of_not_mem {V : Type} (m : GoMap V) (k : String) (v : V)
    (h : k ∉ m.map Prod.fst) : mapSet m k v = m ++ [(k, v)] := by
  induction m with
  | nil => simp [mapSet]
  | cons e rest ih =>
    obtain ⟨a, b⟩ := e
    simp only [List.map_cons, List.mem_cons, not_or] at h
    simp [mapSet, Ne.symm h.1, ih h.2]

theorem mapSet_nodup {V : Type} (m : GoMap V) (k : String) (v : V)
    (h : (m.map Prod.fst).Nodup) : ((mapSet m k v).map Prod.fst).Nodup := by
  by_cases hk : k ∈ m.map Prod.fst
  · rw [mapSet_keys_of_mem m k v hk]; exact h
  · rw [mapSet_of_not_mem m k v hk]
    simp only [List.map_append, List.map_cons, List.map_nil]
    exact List.Nodup.append h (List.nodup_singleton k) (by simpa using hk)

theorem mapGet_eq_some_iff {V : Type} (m : GoMap V) (k : String) (v : V)
    (h : (m.map Prod.fst).Nodup) : mapGet m k = some v ↔ (k, v) ∈ m := by
  induction m with
  | nil => simp [mapGet]
  | cons e rest ih =>
    obtain ⟨a, b⟩ := e
    simp only [List.map_cons, List.nodup_cons] at h
    by_cases hk : a = k
    · subst hk
      have : ∀ v, (a, v) ∉ rest := fun v hv => h.1 (List.mem_map.2 ⟨(a, v), hv, rfl⟩)
      simp [mapGet, this, eq_comm]
    · simp [mapGet, hk, ih h.2, Ne.symm hk]

/-- Two maps with the same key sequence, without repeated keys, and the same
lookups are the same association list. -/
theorem goMap_ext {V : Type} : ∀ (m₁ m₂ : GoMap V),
    m₁.map Prod.fst = m₂.map Prod.fst → (m₁.map Prod.fst).Nodup →
    (∀ k, mapGet m₁ k = mapGet m₂ k) → m₁ = m₂
  | [], [], _, _, _ => rfl
  | [], _ :: _, hk, _, _ => by simp at hk
  | _ :: _, [], hk, _, _ => by simp at hk
  | (a₁, b₁) :: r₁, (a₂, b₂) :: r₂, hk, hn, hg => by
    simp only [List.map_cons, List.cons.injEq] at hk
    obtain ⟨ha, hr⟩ := hk
    subst ha
    simp only [List.map_cons, List.nodup_cons] at hn
    have hb : b₁ = b₂ := by simpa [mapGet] using hg a₁
    subst hb
    have : r₁ = r₂ := by
      refine goMap_ext r₁ r₂ hr hn.2 (fun k => ?_)
      by_cases hka : a₁ = k
      · subst hka
        rw [(mapGet_eq_none_iff r₁ a₁).2 hn.1, (mapGet_eq_none_iff r₂ a₁).2 (hr ▸ hn.1)]
      · simpa [mapGet, hka] using hg k
    rw [this]

/-! ## The frequency map -/

theorem allowPOSMap_fold (allowPOS : List String) (m : GoMap Nat) (k : String) :
    mapGet (allowPOS.foldl (fun m k => mapSet m k 1) m) k =
      if k ∈ allowPOS then some 1 else mapGet m k := by
  induction allowPOS generalizing m with
  | nil => simp
  | cons a rest ih =>
    rw [List.foldl_cons, ih, mapGet_mapSet]
    by_cases h1 : k ∈ rest
    · simp [h1]
    · by_cases h2 : a = k
      · simp [h2]
      · simp [h1, h2, Ne.symm h2]

theorem allowPOSMap_isNone (allowPOS : List String) (k : String) :
    (mapGet (allowPOSMapOf allowPOS) k).isNone = true ↔ k ∉ allowPOS := by
  unfold allowPOSMapOf
  rw [allowPOSMap_fold]
  by_cases h : k ∈ allowPOS <;> simp [h, mapGet]

theorem countWord_eq (ToLower : String → String) (t : TagExtracter)
    (allowPOS : List String) (m : GoMap ℚ) (w : posseg.Segment) :
    countWord ToLower t allowPOS (allowPOSMapOf allowPOS) m w =
      match survives ToLower t allowPOS w with
      | none => m
      | some word => addWord m word := by
  unfold countWord survives
  by_cases h1 : allowPOS ≠ [] ∧ w.pos ∉ allowPOS
  · have : (allowPOS.length > 0 && (mapGet (allowPOSMapOf allowPOS) w.pos).isNone) = true := by
      simp only [Bool.and_eq_true, decide_eq_true_eq, allowPOSMap_isNone]
      exact ⟨List.length_pos.2 h1.1, h1.2⟩
    simp [this, h1]
  · have : ¬ ((allowPOS.length > 0 && (mapGet (allowPOSMapOf allowPOS) w.pos).isNone) = true) := by
      simp only [Bool.and_eq_true, decide_eq_true_eq, allowPOSMap_isNone]
      rintro ⟨ha, hb⟩
      exact h1 ⟨List.length_pos.1 ha, hb⟩
    rw [if_neg this, if_neg h1]
    simp only [RuneCountInString, StopWord.IsStopWord, decide_eq_true_eq]
    by_cases h2 : (TrimSpace w.text).length < 2
    · simp [h2]
    · by_cases h3 : ToLower (TrimSpace w.text) ∈ t.stopWord.stopWordMap
      · simp [h2, h3]
      · simp [h2, h3]

theorem foldl_filterMap_step {α β γ : Type} (f : α → Option β) (g : γ → β → γ)
    (xs : List α) (c : γ) :
    xs.foldl (fun c x => match f x with | none => c | some y => g c y) c =
      (xs.filterMap f).foldl g c := by
  induction xs generalizing c with
  | nil => rfl
  | cons x rest ih =>
    rw [List.foldl_cons, ih, List.filterMap_cons]
    cases f x <;> rfl

/-- The frequency map is the tally of the surviving words. -/
theorem countFreq_eq (ToLower : String → String) (t : TagExtracter)
    (allowPOS : List String) (pairs : List posseg.Segment) :
    countFreq ToLower t allowPOS pairs =
      (survivors ToLower t allowPOS pairs).foldl addWord [] := by
  unfold countFreq survivors
  rw [← foldl_filterMap_step]
  congr 1
  funext m w
  rw [countWord_eq]
  cases survives ToLower t allowPOS w <;> rfl

theorem mapGet_addWord (m : GoMap ℚ) (w k : String) :
    mapGet (addWord m w) k =
      if w = k then some ((mapGet m k).getD 0 + 1) else mapGet m k := by
  unfold addWord
  by_cases h : w = k
  · subst h
    cases hg : mapGet m w <;> simp [mapGet_mapSet]
  · cases hg : mapGet m w <;> simp [mapGet_mapSet, h]

theorem addWord_nodup (m : GoMap ℚ) (w : String) (h : (m.map Prod.fst).Nodup) :
    ((addWord m w).map Prod.fst).Nodup := by
  unfold addWord
  cases mapGet m w <;> exact mapSet_nodup _ _ _ h

theorem tally_nodup (ws : List String) (m : GoMap ℚ) (h : (m.map Prod.fst).Nodup) :
    ((ws.foldl addWord m).map Prod.fst).Nodup := by
  induction ws generalizing m with
  | nil => exact h
  | cons w rest ih => exact ih _ (addWord_nodup m w h)

theorem mapGet_tally (ws : List String) (m : GoMap ℚ) (k : String) :
    mapGet (ws.foldl addWord m) k =
      if ws.count k = 0 then mapGet m k
      else some ((mapGet m k).getD 0 + (ws.count k : ℚ)) := by
  induction ws generalizing m with
  | nil => simp
  | cons w rest ih =>
    rw [List.foldl_cons, ih, mapGet_addWord]
    by_cases hw : w = k
    · subst hw
      by_cases hc : rest.count w = 0
      · simp [hc]
      · simp [hc]; ring
    · have hne : (w == k) = false := by simpa using hw
      by_cases hc : rest.count k = 0
      · simp [hc, hw, List.count_cons, hne]
      · simp [hc, hw, List.count_cons, hne]

theorem sum_mapSet (m : GoMap ℚ) (k : String) (v : ℚ) :
    ((mapSet m k v).map Prod.snd).sum =
      (m.map Prod.snd).sum - (mapGet m k).getD 0 + v := by
  induction m with
  | nil => simp [mapSet, mapGet]
  | cons e rest ih =>
    obtain ⟨a, b⟩ := e
    by_cases h : a = k
    · simp [mapSet, mapGet, h]; ring
    · simp [mapSet, mapGet, h, ih]; ring

theorem sum_addWord (m : GoMap ℚ) (w : String) :
    ((addWord m w).map Prod.snd).sum = (m.map Prod.snd).sum + 1 := by
  unfold addWord
  cases hg : mapGet m w <;> simp [sum_mapSet, hg]
  ring

theorem sum_tally (ws : List String) (m : GoMap ℚ) :
    ((ws.foldl addWord m).map Prod.snd).sum = (m.map Prod.snd).sum + (ws.length : ℚ) := by
  induction ws generalizing m with
  | nil => simp
  | cons w rest ih =>
    rw [List.foldl_cons, ih, sum_addWord]
    simp only [List.length_cons, Nat.cast_add, Nat.cast_one]
    ring

/-! ## Total, normalisation and weighting -/

theorem foldl_add_snd (l : List (String × ℚ)) (a : ℚ) :
    l.foldl (fun total e => total + e.2) a = a + (l.map Prod.snd).sum := by
  induction l generalizing a with
  | nil => simp
  | cons e rest ih => rw [List.foldl_cons, ih]; simp; ring

theorem sumFreq_perm (visit m : List (String × ℚ)) (hp : visit.Perm m) :
    sumFreq visit = (m.map Prod.snd).sum := by
  unfold sumFreq
  rw [foldl_add_snd, zero_add]
  exact (hp.map Prod.snd).sum_eq

theorem mapGet_perm {V : Type} (visit m : GoMap V) (hp : visit.Perm m)
    (hn : (m.map Prod.fst).Nodup) (k : String) : mapGet visit k = mapGet m k := by
  have hn' : (visit.map Prod.fst).Nodup := (hp.map Prod.fst).nodup_iff.2 hn
  apply Option.ext
  intro v
  rw [Option.mem_def, Option.mem_def, mapGet_eq_some_iff visit k v hn',
    mapGet_eq_some_iff m k v hn]
  exact hp.mem_iff

theorem mapGet_map_snd {V W : Type} (f : V → W) (m : GoMap V) (k : String) :
    mapGet (m.map (fun e => (e.1, f e.2))) k = (mapGet m k).map f := by
  induction m with
  | nil => rfl
  | cons e rest ih =>
    obtain ⟨a, b⟩ := e
    by_cases h : a = k
    · simp [mapGet, h]
    · simpa [mapGet, h] using ih

theorem normalize_get (visit : List (String × ℚ)) (m : GoMap ℚ) (total : ℚ)
    (hn : (visit.map Prod.fst).Nodup) (k : String) :
    mapGet (normalize m visit total) k =
      match mapGet visit k with
      | some v => some (fdiv v total)
      | none => mapGet m k := by
  induction visit generalizing m with
  | nil => simp [normalize, mapGet]
  | cons e rest ih =>
    obtain ⟨a, b⟩ := e
    simp only [List.map_cons, List.nodup_cons] at hn
    have hstep : normalize m ((a, b) :: rest) total =
        normalize (mapSet m a (fdiv b total)) rest total := rfl
    rw [hstep, ih _ hn.2, mapGet_mapSet]
    by_cases h : a = k
    · subst h
      rw [(mapGet_eq_none_iff rest a).2 hn.1]
      simp [mapGet]
    · simp [mapGet, h]

theorem normalize_keys (visit : List (String × ℚ)) (m : GoMap ℚ) (total : ℚ)
    (hsub : ∀ e ∈ visit, e.1 ∈ m.map Prod.fst) :
    (normalize m visit total).map Prod.fst = m.map Prod.fst := by
  induction visit generalizing m with
  | nil => rfl
  | cons e rest ih =>
    have hstep : normalize m (e :: rest) total =
        normalize (mapSet m e.1 (fdiv e.2 total)) rest total := rfl
    have hk : (mapSet m e.1 (fdiv e.2 total)).map Prod.fst = m.map Prod.fst :=
      mapSet_keys_of_mem m e.1 _ (hsub e (List.mem_cons_self _ _))
    rw [hstep, ih, hk]
    intro e' he'
    rw [hk]
    exact hsub e' (List.mem_cons_of_mem _ he')

/-- The normalisation loop replaces every value by its `float64` quotient by
`total`, whatever the order in which it visits the keys. -/
theorem normalize_eq (visit : List (String × ℚ)) (m : GoMap ℚ) (total : ℚ)
    (hp : visit.Perm m) (hn : (m.map Prod.fst).Nodup) :
    normalize m visit total = m.map (fun e => (e.1, fdiv e.2 total)) := by
  have hsub : ∀ e ∈ visit, e.1 ∈ m.map Prod.fst := fun e he =>
    List.mem_map.2 ⟨e, hp.mem_iff.1 he, rfl⟩
  have hkeys := normalize_keys visit m total hsub
  have hn' : (visit.map Prod.fst).Nodup := (hp.map Prod.fst).nodup_iff.2 hn
  refine goMap_ext _ _ ?_ ?_ ?_
  · rw [hkeys]; simp [List.map_map, Function.comp_def]
  · rw [hkeys]; exact hn
  · intro k
    rw [normalize_get visit m total hn' k, mapGet_map_snd (fun v => fdiv v total) m k,
      mapGet_perm visit m hp hn k]
    cases mapGet m k <;> rfl

theorem weighAll_eq (t : TagExtracter) (visit : List (String × ℚ)) :
    weighAll t visit = visit.map (fun e => weighEntry t e.1 e.2) := by
  have h : ∀ (l : List (String × ℚ)) (acc : Segments),
      l.foldl (fun ws e => ws ++ [weighEntry t e.1 e.2]) acc =
        acc ++ l.map (fun e => weighEntry t e.1 e.2) := by
    intro l
    induction l with
    | nil => intro acc; simp
    | cons e rest ih => intro acc; rw [List.foldl_cons, ih]; simp
  simpa [weighAll] using h visit []

/-! ## The order of the result -/

theorem rankKey_injective : Function.Injective rankKey := by
  intro a b h
  have h' : (a.weight, a.text) = (b.weight, b.text) := toLex.injective h
  cases a; cases b
  simp only [Prod.mk.injEq] at h'
  simp [h'.1, h'.2]

theorem lessEntry_iff (a b : Segment) : lessEntry a b = true ↔ rankKey a < rankKey b := by
  unfold lessEntry rankKey
  rw [Prod.Lex.lt_iff]
  by_cases h : a.weight = b.weight
  · simp [h]
  · simp [h]

theorem lessEntry_false_iff (a b : Segment) :
    lessEntry a b = false ↔ rankKey b ≤ rankKey a := by
  rw [← not_lt, ← lessEntry_iff]
  simp

theorem rank_total : IsTotal Segment (fun a b => reverseLess b a = false) :=
  ⟨fun a b => by
    simp only [reverseLess, lessEntry_false_iff]
    exact le_total _ _⟩

theorem rank_trans : IsTrans Segment (fun a b => reverseLess b a = false) :=
  ⟨fun a b c hab hbc => by
    simp only [reverseLess, lessEntry_false_iff] at *
    exact le_trans hbc hab⟩

theorem rank_antisymm : IsAntisymm Segment (fun a b => reverseLess b a = false) :=
  ⟨fun a b hab hba => by
    simp only [reverseLess, lessEntry_false_iff] at *
    exact rankKey_injective (le_antisymm hba hab)⟩

theorem sortBy_sorted (ws : Segments) :
    (sortBy reverseLess ws).Sorted (fun a b => reverseLess b a = false) :=
  haveI := rank_total
  haveI := rank_trans
  List.sorted_insertionSort _ ws

theorem sortBy_perm (ws : Segments) : (sortBy reverseLess ws).Perm ws :=
  List.perm_insertionSort _ ws

/-- A list has one arrangement only in which no later entry is `Less` than an
earlier entry under the reversed comparator. -/
theorem sorted_perm_unique (l₁ l₂ : Segments) (hp : l₁.Perm l₂)
    (h₁ : l₁.Sorted (fun a b => reverseLess b a = false))
    (h₂ : l₂.Sorted (fun a b => reverseLess b a = false)) : l₁ = l₂ :=
  haveI := rank_antisymm
  List.eq_of_perm_of_sorted hp h₁ h₂

theorem sortBy_congr (l₁ l₂ : Segments) (hp : l₁.Perm l₂) :
    sortBy reverseLess l₁ = sortBy reverseLess l₂ :=
  sorted_perm_unique _ _ (((sortBy_perm l₁).trans hp).trans (sortBy_perm l₂).symm)
    (sortBy_sorted l₁) (sortBy_sorted l₂)

/-! ## The result in closed form -/

theorem tally_entry (ws : List String) (e : String × ℚ)
    (he : e ∈ ws.foldl addWord []) : e.2 = (ws.count e.1 : ℚ) := by
  have hn : ((ws.foldl addWord []).map Prod.fst).Nodup :=
    tally_nodup ws [] (by simp)
  have hg := (mapGet_eq_some_iff _ e.1 e.2 hn).2 he
  rw [mapGet_tally] at hg
  by_cases hc : ws.count e.1 = 0
  · simp [hc, mapGet] at hg
  · simp [hc, mapGet] at hg
    exact hg.symm

theorem tally_keys_mem (ws : List String) (k : String) :
    k ∈ (ws.foldl addWord []).map Prod.fst ↔ k ∈ ws := by
  have h := mapGet_eq_none_iff (ws.foldl addWord []) k
  rw [mapGet_tally] at h
  by_cases hc : ws.count k = 0
  · have hk : k ∉ ws := List.count_eq_zero.1 hc
    simp only [hc, if_true, mapGet, true_iff] at h
    exact ⟨fun hm => absurd hm h, fun hm => absurd hm hk⟩
  · have hk : k ∈ ws := by
      by_contra hk
      exact hc (List.count_eq_zero.2 hk)
    simp only [hc, if_false] at h
    have : k ∈ (ws.foldl addWord []).map Prod.fst := by
      by_contra hm
      have := h.2 hm
      simp at this
    exact ⟨fun _ => hk, fun _ => this⟩

theorem tally_keys_perm (ws : List String) :
    ((ws.foldl addWord []).map Prod.fst).Perm ws.dedup :=
  (List.perm_ext_iff_of_nodup (tally_nodup ws [] (by simp)) (List.nodup_dedup ws)).2
    (fun k => by rw [tally_keys_mem, List.mem_dedup])

/-- The extractor in closed form: with admissible visiting orders the result is
the ranked list of the distinct surviving terms, truncated. -/
theorem extractFromPairs_eq (ToLower : String → String) (o : RangeOrder)
    (t : TagExtracter) (pairs : List posseg.Segment) (topK : Int)
    (allowPOS : List String) (ho : o.Valid) :
    extractFromPairs ToLower o t pairs topK allowPOS =
      truncate (ranked t (survivors ToLower t allowPOS pairs)) topK := by
  unfold extractFromPairs ranked
  rw [countFreq_eq]
  generalize survivors ToLower t allowPOS pairs = ws
  have hn : ((ws.foldl addWord []).map Prod.fst).Nodup := tally_nodup ws [] (by simp)
  have htotal : sumFreq (o.total (ws.foldl addWord [])) = (ws.length : ℚ) := by
    rw [sumFreq_perm _ _ (ho _).1, sum_tally]
    simp
  simp only [htotal]
  rw [normalize_eq _ _ _ (ho _).2.1 hn, weighAll_eq]
  congr 1
  apply sortBy_congr
  refine (((ho _).2.2).map _).trans ?_
  rw [List.map_map]
  have hmap : (ws.foldl addWord []).map
        ((fun e : String × ℚ => weighEntry t e.1 e.2) ∘
          fun e : String × ℚ => (e.1, fdiv e.2 (ws.length : ℚ))) =
      ((ws.foldl addWord []).map Prod.fst).map
        (fun k => weighEntry t k (proportion ws k)) := by
    rw [List.map_map]
    apply List.map_congr_left
    intro e he
    simp only [Function.comp, proportion]
    rw [tally_entry ws e he]
  rw [hmap]
  exact (tally_keys_perm ws).map _

theorem stored_valid : RangeOrder.stored.Valid :=
  fun m => ⟨List.Perm.refl m, List.Perm.refl m, List.Perm.refl m⟩

theorem truncate_of_nonneg (ws : Segments) (topK : Int) (hk : 0 ≤ topK) :
    truncate ws topK = some (ws.take topK.toNat) := by
  unfold truncate sliceTo
  by_cases h : (ws.length : Int) > topK
  · rw [if_pos h, if_pos ⟨hk, le_of_lt h⟩]
  · rw [if_neg h]
    have : ws.length ≤ topK.toNat := by omega
    rw [List.take_of_length_le this]

theorem truncate_of_neg (ws : Segments) (topK : Int) (hk : topK < 0) :
    truncate ws topK = none := by
  unfold truncate sliceTo
  have h : (ws.length : Int) > topK := by omega
  rw [if_pos h, if_neg (by omega)]

theorem ExtractTagsWithPOS_of_nonneg (ToLower : String → String) (o : RangeOrder)
    (t : TagExtracter) (sentence : String) (topK : Int) (allowPOS : List String)
    (ho : o.Valid) (hk : 0 ≤ topK) :
    ExtractTagsWithPOS ToLower o t sentence topK allowPOS =
      some ((ranked t (survivors ToLower t allowPOS (t.seg.Cut sentence true))).take
        topK.toNat) := by
  unfold ExtractTagsWithPOS
  rw [extractFromPairs_eq ToLower o t _ topK allowPOS ho, truncate_of_nonneg _ _ hk]

theorem ExtractTagsWithPOS_some (ToLower : String → String) (o : RangeOrder)
    (t : TagExtracter) (sentence : String) (topK : Int) (allowPOS : List String)
    (ho : o.Valid) (tags : Segments)
    (h : ExtractTagsWithPOS ToLower o t sentence topK allowPOS = some tags) :
    0 ≤ topK ∧
      tags = (ranked t (survivors ToLower t allowPOS (t.seg.Cut sentence true))).take
        topK.toNat := by
  by_cases hk : 0 ≤ topK
  · rw [ExtractTagsWithPOS_of_nonneg ToLower o t sentence topK allowPOS ho hk] at h
    exact ⟨hk, (Option.some.inj h).symm⟩
  · unfold ExtractTagsWithPOS at h
    rw [extractFromPairs_eq ToLower o t _ topK allowPOS ho,
      truncate_of_neg _ _ (by omega)] at h
    cases h

theorem weighEntry_text (t : TagExtracter) (k : String) (v : ℚ) :
    (weighEntry t k v).text = k := by
  unfold weighEntry
  cases t.idf.Frequency k <;> rfl

theorem weighEntry_weight_found (t : TagExtracter) (k : String) (v w : ℚ)
    (h : t.idf.Frequency k = some w) : (weighEntry t k v).weight = fmul w v := by
  unfold weighEntry
  rw [h]

theorem mem_ranked (t : TagExtracter) (ws : List String) (e : Segment) :
    e ∈ ranked t ws ↔ ∃ k ∈ ws, e = weighEntry t k (proportion ws k) := by
  unfold ranked
  rw [(sortBy_perm _).mem_iff, List.mem_map]
  constructor
  · rintro ⟨k, hk, rfl⟩
    exact ⟨k, List.mem_dedup.1 hk, rfl⟩
  · rintro ⟨k, hk, rfl⟩
    exact ⟨k, List.mem_dedup.2 hk, rfl⟩

theorem ranked_length (t : TagExtracter) (ws : List String) :
    (ranked t ws).length = ws.dedup.length := by
  unfold ranked
  rw [(sortBy_perm _).length_eq, List.length_map]

theorem ranked_texts_nodup (t : TagExtracter) (ws : List String) :
    ((ranked t ws).map Segment.text).Nodup := by
  unfold ranked
  rw [((sortBy_perm _).map Segment.text).nodup_iff, List.map_map]
  have : (Segment.text ∘ fun k => weighEntry t k (proportion ws k)) = id := by
    funext k
    exact weighEntry_text t k _
  rw [this, List.map_id]
  exact List.nodup_dedup ws

theorem ranked_pairwise (t : TagExtracter) (ws : List String) :
    (ranked t ws).Pairwise (fun a b => rankKey b ≤ rankKey a) := by
  have h := sortBy_sorted (ws.dedup.map (fun k => weighEntry t k (proportion ws k)))
  refine List.Pairwise.imp ?_ h
  intro a b hab
  simpa only [reverseLess, lessEntry_false_iff] using hab

theorem mem_survivors (ToLower : String → String) (t : TagExtracter)
    (allowPOS : List String) (pairs : List posseg.Segment) (k : String) :
    k ∈ survivors ToLower t allowPOS pairs ↔
      ∃ w ∈ pairs, (allowPOS = [] ∨ w.pos ∈ allowPOS) ∧ k = TrimSpace w.text ∧
        2 ≤ k.length ∧ ToLower k ∉ t.stopWord.stopWordMap := by
  unfold survivors
  rw [List.mem_filterMap]
  constructor
  · rintro ⟨w, hw, hs⟩
    refine ⟨w, hw, ?_⟩
    unfold survives at hs
    by_cases h1 : allowPOS ≠ [] ∧ w.pos ∉ allowPOS
    · rw [if_pos h1] at hs; cases hs
    · rw [if_neg h1] at hs
      by_cases h2 : (TrimSpace w.text).length < 2
      · rw [if_pos h2] at hs; cases hs
      · rw [if_neg h2] at hs
        by_cases h3 : ToLower (TrimSpace w.text) ∈ t.stopWord.stopWordMap
        · rw [if_pos h3] at hs; cases hs
        · rw [if_neg h3] at hs
          have hk : TrimSpace w.text = k := Option.some.inj hs
          subst hk
          refine ⟨?_, rfl, by omega, h3⟩
          by_contra hc
          exact h1 ⟨fun h => hc (Or.inl h), fun h => hc (Or.inr h)⟩
  · rintro ⟨w, hw, hpos, rfl, hlen, hstop⟩
    refine ⟨w, hw, ?_⟩
    unfold survives
    have h1 : ¬ (allowPOS ≠ [] ∧ w.pos ∉ allowPOS) := by
      rintro ⟨ha, hb⟩
      rcases hpos with h | h
      · exact ha h
      · exact hb h
    rw [if_neg h1, if_neg (by omega), if_neg hstop]

theorem ranked_pairwise_order (t : TagExtracter) (ws : List String) :
    (ranked t ws).Pairwise (fun a b =>
      b.weight ≤ a.weight ∧ (a.weight = b.weight → b.text < a.text)) := by
  have h1 := ranked_pairwise t ws
  have h2 : (ranked t ws).Pairwise (fun a b => a.text ≠ b.text) :=
    List.pairwise_map.1 (ranked_texts_nodup t ws)
  refine List.Pairwise.imp ?_ (h1.and h2)
  rintro a b ⟨hle, hne⟩
  have hle' : (b.weight, b.text).1 < (a.weight, a.text).1 ∨
      (b.weight, b.text).1 = (a.weight, a.text).1 ∧
        (b.weight, b.text).2 ≤ (a.weight, a.text).2 :=
    (Prod.Lex.le_iff (b.weight, b.text) (a.weight, a.text)).1 hle
  simp only at hle'
  rcases hle' with h | ⟨h, h'⟩
  · exact ⟨le_of_lt h, fun he => absurd he.symm (ne_of_lt h)⟩
  · exact ⟨le_of_eq h, fun _ => lt_of_le_of_ne h' (Ne.symm hne)⟩

theorem take_pairwise_get {R : Segment → Segment → Prop} (l : Segments) (n : Nat)
    (h : l.Pairwise R) (i j : Nat) (hij : i < j) (hj : j < (l.take n).length) :
    R ((l.take n).get ⟨i, lt_trans hij hj⟩) ((l.take n).get ⟨j, hj⟩) :=
  List.pairwise_iff_get.1 (h.sublist (List.take_sublist n l)) ⟨i, lt_trans hij hj⟩ ⟨j, hj⟩ hij

theorem reversed_valid : RangeOrder.reversed.Valid :=
  fun m => ⟨List.reverse_perm m, List.reverse_perm m, List.reverse_perm m⟩

theorem dropWhile_head_false {α : Type} (p : α → Bool) (l : List α) (x : α) (r : List α)
    (h : l.dropWhile p = x :: r) : p x = false := by
  induction l with
  | nil => simp at h
  | cons y l ih =>
    by_cases hy : p y = true
    · rw [List.dropWhile_cons_of_pos hy] at h
      exact ih h
    · rw [List.dropWhile_cons_of_neg hy] at h
      cases h
      simpa using hy

/-- Trimming a trimmed string changes nothing. -/
theorem TrimSpace_idem (s : String) : TrimSpace (TrimSpace s) = TrimSpace s := by
  unfold TrimSpace
  simp only
  congr 1
  generalize hb : (List.dropWhile isSpace (List.dropWhile isSpace s.data).reverse).reverse = b
  have hsplit : List.dropWhile isSpace s.data =
      b ++ (List.takeWhile isSpace (List.dropWhile isSpace s.data).reverse).reverse := by
    rw [← hb, ← List.reverse_append, List.takeWhile_append_dropWhile, List.reverse_reverse]
  have h1 : List.dropWhile isSpace b = b := by
    cases b with
    | nil => rfl
    | cons x b' =>
      have hx : isSpace x = false :=
        dropWhile_head_false isSpace s.data x _ (by rw [hsplit]; rfl)
      rw [List.dropWhile_cons_of_neg (by simp [hx])]
  have h2 : List.dropWhile isSpace b.reverse = b.reverse := by
    rw [← hb, List.reverse_reverse]
    exact List.dropWhile_idempotent _ _
  rw [h1, h2, List.reverse_reverse]

theorem survivors_restrict (ToLower : String → String) (t : TagExtracter)
    (allowPOS : List String) (hP : allowPOS ≠ []) (pairs : List posseg.Segment) :
    survivors ToLower t allowPOS pairs =
      survivors ToLower t [] (pairs.filter (fun w => decide (w.pos ∈ allowPOS))) := by
  unfold survivors
  induction pairs with
  | nil => rfl
  | cons w rest ih =>
    by_cases hw : w.pos ∈ allowPOS
    · have hs : survives ToLower t allowPOS w = survives ToLower t [] w := by
        simp [survives, hw]
      rw [List.filter_cons_of_pos (by simpa using hw), List.filterMap_cons,
        List.filterMap_cons, hs, ih]
    · have hs : survives ToLower t allowPOS w = none := by
        simp [survives, hw, hP]
      rw [List.filter_cons_of_neg (by simpa using hw), List.filterMap_cons, hs, ih]

theorem survivors_of_texts (ToLower : String → String) (t : TagExtracter)
    (pairs : List posseg.Segment) :
    survivors ToLower t [] pairs =
      (pairs.map posseg.Segment.text).filterMap
        (fun s => survives ToLower t [] ⟨s, ""⟩) := by
  unfold survivors
  rw [List.filterMap_map]
  apply List.filterMap_congr
  intro w _
  simp [survives]

theorem extractFromPairs_congr (ToLower : String → String) (o : RangeOrder)
    (t : TagExtracter) (pairs pairs' : List posseg.Segment) (topK : Int)
    (allowPOS allowPOS' : List String)
    (h : survivors ToLower t allowPOS pairs = survivors ToLower t allowPOS' pairs') :
    extractFromPairs ToLower o t pairs topK allowPOS =
      extractFromPairs ToLower o t pairs' topK allowPOS' := by
  unfold extractFromPairs
  rw [countFreq_eq, countFreq_eq, h]

theorem ranked_nil (t : TagExtracter) : ranked t [] = [] := rfl

/-! ## The claims -/

/-- C1: for every extractor (hence every finite stream of pairs its segmenter
delivers), every idf table and every `topK ≥ 0`, the call returns a list, and every
entry of it whose text is found in the idf table with weight `w` has weight
`w * (count / total)`, the product and the quotient being those of `float64` as
in lines 113 and 119, where `count` is the number of surviving pairs (those that
pass the part-of-speech, length and stop-word filters) whose trimmed text is the
entry's text, and `total` is the number of all surviving pairs. -/
theorem found_term_weight (ToLower : String → String) (o : RangeOrder)
    (t : TagExtracter) (sentence : String) (topK : Int) (allowPOS : List String)
    (ho : o.Valid) (hk : 0 ≤ topK) :
    ∃ tags, ExtractTagsWithPOS ToLower o t sentence topK allowPOS = some tags ∧
      ∀ e ∈ tags, ∀ w, t.idf.Frequency e.text = some w →
        e.weight = fmul w
          (fdiv ((survivors ToLower t allowPOS (t.seg.Cut sentence true)).count e.text : ℚ)
            ((survivors ToLower t allowPOS (t.seg.Cut sentence true)).length : ℚ)) := by
  refine ⟨_, ExtractTagsWithPOS_of_nonneg ToLower o t sentence topK allowPOS ho hk, ?_⟩
  intro e he w hw
  obtain ⟨k, _, rfl⟩ := (mem_ranked t _ e).1 (List.mem_of_mem_take he)
  rw [weighEntry_text] at hw ⊢
  rw [weighEntry_weight_found t k _ w hw]
  rfl

/-- Witness of C1: "aa" is one of five surviving words and has idf weight 3; its
entry weighs the `float64` product of 3 and the `float64` quotient 1/5, which is
0.6000000000000001 and not the rational 3/5. -/
theorem found_term_weight_witness :
    ExtractTagsWithPOS asciiLower RangeOrder.stored roundingExtracter "aa bb cc dd ee" 1 [] =
        some [⟨"aa", 5404319552844596 / 9007199254740992⟩] ∧
      survivors asciiLower roundingExtracter [] (roundingExtracter.seg.Cut "aa bb cc dd ee" true) =
        ["aa", "bb", "cc", "dd", "ee"] ∧
      (5404319552844596 / 9007199254740992 : ℚ) =
        fmul 3 (fdiv ((["aa", "bb", "cc", "dd", "ee"].count "aa" : Nat) : ℚ)
          ((["aa", "bb", "cc", "dd", "ee"].length : Nat) : ℚ)) ∧
      (5404319552844596 / 9007199254740992 : ℚ) ≠ 3 * (1 / 5) := by
  obtain ⟨tags, h, hall⟩ := found_term_weight asciiLower RangeOrder.stored roundingExtracter
    "aa bb cc dd ee" 1 [] stored_valid (by decide)
  have he : ExtractTagsWithPOS asciiLower RangeOrder.stored roundingExtracter
      "aa bb cc dd ee" 1 [] = some [⟨"aa", 5404319552844596 / 9007199254740992⟩] := by decide!
  have hs : survivors asciiLower roundingExtracter []
      (roundingExtracter.seg.Cut "aa bb cc dd ee" true) = ["aa", "bb", "cc", "dd", "ee"] := by
    decide
  have ht : tags = [⟨"aa", 5404319552844596 / 9007199254740992⟩] :=
    Option.some.inj (h.symm.trans he)
  subst ht
  have := hall ⟨"aa", 5404319552844596 / 9007199254740992⟩ (by simp) 3 (by decide)
  rw [hs] at this
  exact ⟨he, hs, this, by norm_num⟩

/-- C2: for every sentence, `topK ≥ 0` and `allowPOS`, the call returns a list that
is ordered by weight descending: each entry weighs at least as much as the entry
right after it (and as every later entry). -/
theorem weight_descending (ToLower : String → String) (o : RangeOrder)
    (t : TagExtracter) (sentence : String) (topK : Int) (allowPOS : List String)
    (ho : o.Valid) (hk : 0 ≤ topK) :
    ∃ tags, ExtractTagsWithPOS ToLower o t sentence topK allowPOS = some tags ∧
      (∀ (i : Nat) (h : i + 1 < tags.length),
        (tags.get ⟨i + 1, h⟩).weight ≤ (tags.get ⟨i, Nat.lt_of_succ_lt h⟩).weight) ∧
      tags.Pairwise (fun a b => b.weight ≤ a.weight) := by
  refine ⟨_, ExtractTagsWithPOS_of_nonneg ToLower o t sentence topK allowPOS ho hk, ?_, ?_⟩
  · intro i h
    exact (take_pairwise_get _ _ (ranked_pairwise_order t _) i (i + 1) (Nat.lt_succ_self i) h).1
  · exact ((ranked_pairwise_order t _).sublist (List.take_sublist _ _)).imp (fun h => h.1)

/-- Witness of C2 on the worked example: the weights are 3/2, 1/2, 1/2. -/
theorem weight_descending_witness :
    ∃ tags, ExtractTagsWithPOS asciiLower RangeOrder.stored demoExtracter demoSentence 10 [] =
        some tags ∧
      tags.map Segment.weight = [3 / 2, 1 / 2, 1 / 2] ∧
      tags.Pairwise (fun a b => b.weight ≤ a.weight) := by
  obtain ⟨tags, h, _, hp⟩ := weight_descending asciiLower RangeOrder.stored demoExtracter
    demoSentence 10 [] stored_valid (by decide)
  have he : ExtractTagsWithPOS asciiLower RangeOrder.stored demoExtracter demoSentence 10 [] =
      some [⟨"aa", 3 / 2⟩, ⟨"dd", 1 / 2⟩, ⟨"bb", 1 / 2⟩] := by decide!
  have ht : tags = [⟨"aa", 3 / 2⟩, ⟨"dd", 1 / 2⟩, ⟨"bb", 1 / 2⟩] :=
    Option.some.inj (h.symm.trans he)
  exact ⟨tags, h, by rw [ht]; rfl, hp⟩

/-- C3, as the code has it: for every sentence, `topK ≥ 0` and `allowPOS`, the call
returns a list in which, of two entries of equal weight, the one whose text is
lexicographically greater comes first (equal-weight runs are sorted by text
descending, because `sort.Reverse` reverses the tie-break of `Less` as well). -/
theorem equal_weight_text_descending (ToLower : String → String) (o : RangeOrder)
    (t : TagExtracter) (sentence : String) (topK : Int) (allowPOS : List String)
    (ho : o.Valid) (hk : 0 ≤ topK) :
    ∃ tags, ExtractTagsWithPOS ToLower o t sentence topK allowPOS = some tags ∧
      ∀ (i j : Nat) (hij : i < j) (hj : j < tags.length),
        (tags.get ⟨i, lt_trans hij hj⟩).weight = (tags.get ⟨j, hj⟩).weight →
          (tags.get ⟨j, hj⟩).text < (tags.get ⟨i, lt_trans hij hj⟩).text := by
  refine ⟨_, ExtractTagsWithPOS_of_nonneg ToLower o t sentence topK allowPOS ho hk, ?_⟩
  intro i j hij hj
  exact (take_pairwise_get _ _ (ranked_pairwise_order t _) i j hij hj).2

/-- Witness of the amended C3 on the worked example: "dd" and "bb" both weigh 1/2
and "dd" comes first. -/
theorem equal_weight_text_descending_witness :
    ∃ tags, ExtractTagsWithPOS asciiLower RangeOrder.stored demoExtracter demoSentence 10 [] =
        some tags ∧
      tags = [⟨"aa", 3 / 2⟩, ⟨"dd", 1 / 2⟩, ⟨"bb", 1 / 2⟩] ∧
      ∀ (i j : Nat) (hij : i < j) (hj : j < tags.length),
        (tags.get ⟨i, lt_trans hij hj⟩).weight = (tags.get ⟨j, hj⟩).weight →
          (tags.get ⟨j, hj⟩).text < (tags.get ⟨i, lt_trans hij hj⟩).text := by
  obtain ⟨tags, h, hp⟩ := equal_weight_text_descending asciiLower RangeOrder.stored
    demoExtracter demoSentence 10 [] stored_valid (by decide)
  have he : ExtractTagsWithPOS asciiLower RangeOrder.stored demoExtracter demoSentence 10 [] =
      some [⟨"aa", 3 / 2⟩, ⟨"dd", 1 / 2⟩, ⟨"bb", 1 / 2⟩] := by decide!
  exact ⟨tags, h, Option.some.inj (h.symm.trans he), hp⟩

/-- Counterexample to C3 as stated: on the worked example "bb" and "dd" have the
same weight 1/2 and "bb" is lexicographically smaller, yet "dd" comes first. -/
theorem equal_weight_smaller_text_not_first :
    ExtractTagsWithPOS asciiLower RangeOrder.stored demoExtracter demoSentence 10 [] =
        some [⟨"aa", 3 / 2⟩, ⟨"dd", 1 / 2⟩, ⟨"bb", 1 / 2⟩] ∧ "bb" < "dd" := by
  constructor
  · decide!
  · rw [String.lt_iff_toList_lt]; decide

/-- C4: for every sentence and every `topK ≥ 0`, `ExtractTags` returns a list whose
length is the minimum of `topK` and the number of distinct surviving terms; for
`topK = 0` the list is empty, and for `topK ≥ 1` on a sentence with at least one
surviving term it is non-empty.  The same holds of `ExtractTagsWithPOS` for every
`allowPOS`. -/
theorem extract_tags_length (ToLower : String → String) (o : RangeOrder)
    (t : TagExtracter) (sentence : String) (topK : Int) (ho : o.Valid) (hk : 0 ≤ topK) :
    (∃ tags, ExtractTags ToLower o t sentence topK = some tags ∧
      (tags.length : Int) = min topK
        ((survivors ToLower t defaultAllowPOS (t.seg.Cut sentence true)).dedup.length : Int) ∧
      (topK = 0 → tags = []) ∧
      (1 ≤ topK → survivors ToLower t defaultAllowPOS (t.seg.Cut sentence true) ≠ [] →
        tags ≠ [])) ∧
    ∀ allowPOS : List String,
      ∃ tags, ExtractTagsWithPOS ToLower o t sentence topK allowPOS = some tags ∧
        (tags.length : Int) = min topK
          ((survivors ToLower t allowPOS (t.seg.Cut sentence true)).dedup.length : Int) ∧
        (topK = 0 → tags = []) ∧
        (1 ≤ topK → survivors ToLower t allowPOS (t.seg.Cut sentence true) ≠ [] →
          tags ≠ []) := by
  have key : ∀ allowPOS : List String,
      ∃ tags, ExtractTagsWithPOS ToLower o t sentence topK allowPOS = some tags ∧
        (tags.length : Int) = min topK
          ((survivors ToLower t allowPOS (t.seg.Cut sentence true)).dedup.length : Int) ∧
        (topK = 0 → tags = []) ∧
        (1 ≤ topK → survivors ToLower t allowPOS (t.seg.Cut sentence true) ≠ [] →
          tags ≠ []) := by
    intro allowPOS
    refine ⟨_, ExtractTagsWithPOS_of_nonneg ToLower o t sentence topK allowPOS ho hk,
      ?_, ?_, ?_⟩
    · rw [List.length_take, ranked_length]
      have hn : ((topK.toNat : Nat) : Int) = topK := Int.toNat_of_nonneg hk
      rw [Nat.cast_min, hn]
    · intro h0
      rw [h0]
      rfl
    · intro h1 hs hnil
      have hlen := congrArg List.length hnil
      rw [List.length_take, ranked_length] at hlen
      have hd : 0 < (survivors ToLower t allowPOS (t.seg.Cut sentence true)).dedup.length :=
        List.length_pos.2 (fun h => hs (List.dedup_eq_nil _ |>.1 h))
      have hn : 0 < topK.toNat := by omega
      simp only [List.length_nil] at hlen
      omega
  exact ⟨key defaultAllowPOS, key⟩

/-- Witness of C4 on the worked example: three distinct terms survive, so `topK = 2`
returns two entries. -/
theorem extract_tags_length_witness :
    ∃ tags, ExtractTags asciiLower RangeOrder.stored demoExtracter demoSentence 2 = some tags ∧
      tags = [⟨"aa", 3 / 2⟩, ⟨"dd", 1 / 2⟩] ∧
      (survivors asciiLower demoExtracter defaultAllowPOS demoPairs).dedup.length = 3 ∧
      (tags.length : Int) = min 2
        ((survivors asciiLower demoExtracter defaultAllowPOS
          (demoExtracter.seg.Cut demoSentence true)).dedup.length : Int) := by
  obtain ⟨⟨tags, h, hlen, _, _⟩, _⟩ := extract_tags_length asciiLower RangeOrder.stored
    demoExtracter demoSentence 2 stored_valid (by decide)
  have he : ExtractTags asciiLower RangeOrder.stored demoExtracter demoSentence 2 =
      some [⟨"aa", 3 / 2⟩, ⟨"dd", 1 / 2⟩] := by decide!
  exact ⟨tags, h, Option.some.inj (h.symm.trans he), by decide, hlen⟩

/-- C5, what the code does: for every sentence and every negative `topK` the call
panics (the slice expression `ws[:topK]` is evaluated with a negative bound); it
does not return the empty list. -/
theorem negative_topK_panics (ToLower : String → String) (o : RangeOrder)
    (t : TagExtracter) (sentence : String) (n : Nat) (allowPOS : List String) :
    ExtractTagsWithPOS ToLower o t sentence (Int.negSucc n) allowPOS = none := by
  unfold ExtractTagsWithPOS extractFromPairs
  exact truncate_of_neg _ _ (Int.negSucc_lt_zero n)

/-- C6: for every sentence, `topK` and `allowPOS`, the call returns a list when
`topK ≥ 0`, and every entry of a returned list has a text that is a trimmed word
of the segmenter output, is unchanged by trimming, and has at least two code
points. -/
theorem short_terms_absent (ToLower : String → String) (o : RangeOrder)
    (t : TagExtracter) (sentence : String) (topK : Int) (allowPOS : List String)
    (ho : o.Valid) :
    (0 ≤ topK → ∃ tags, ExtractTagsWithPOS ToLower o t sentence topK allowPOS = some tags) ∧
    ∀ tags, ExtractTagsWithPOS ToLower o t sentence topK allowPOS = some tags →
      ∀ e ∈ tags, 2 ≤ RuneCountInString e.text ∧ TrimSpace e.text = e.text ∧
        2 ≤ RuneCountInString (TrimSpace e.text) ∧
        ∃ w ∈ t.seg.Cut sentence true, e.text = TrimSpace w.text := by
  refine ⟨fun hk => ⟨_, ExtractTagsWithPOS_of_nonneg ToLower o t sentence topK allowPOS ho hk⟩,
    ?_⟩
  intro tags h e he
  obtain ⟨_, rfl⟩ := ExtractTagsWithPOS_some ToLower o t sentence topK allowPOS ho tags h
  obtain ⟨k, hk, rfl⟩ := (mem_ranked t _ e).1 (List.mem_of_mem_take he)
  obtain ⟨w, hw, _, hkw, hlen, _⟩ := (mem_survivors ToLower t allowPOS _ k).1 hk
  rw [weighEntry_text]
  have htrim : TrimSpace k = k := by rw [hkw, TrimSpace_idem]
  exact ⟨hlen, htrim, by rw [htrim]; exact hlen, w, hw, hkw⟩

/-- Witness of C6 on the worked example: the one-letter word "c" is absent and the
word " bb " appears trimmed. -/
theorem short_terms_absent_witness :
    ExtractTagsWithPOS asciiLower RangeOrder.stored demoExtracter demoSentence 10 [] =
        some [⟨"aa", 3 / 2⟩, ⟨"dd", 1 / 2⟩, ⟨"bb", 1 / 2⟩] ∧
      ∀ e ∈ ([⟨"aa", 3 / 2⟩, ⟨"dd", 1 / 2⟩, ⟨"bb", 1 / 2⟩] : Segments),
        2 ≤ RuneCountInString e.text ∧ TrimSpace e.text = e.text ∧
        2 ≤ RuneCountInString (TrimSpace e.text) ∧
        ∃ w ∈ demoExtracter.seg.Cut demoSentence true, e.text = TrimSpace w.text := by
  have he : ExtractTagsWithPOS asciiLower RangeOrder.stored demoExtracter demoSentence 10 [] =
      some [⟨"aa", 3 / 2⟩, ⟨"dd", 1 / 2⟩, ⟨"bb", 1 / 2⟩] := by decide!
  exact ⟨he, (short_terms_absent asciiLower RangeOrder.stored demoExtracter demoSentence 10 []
    stored_valid).2 _ he⟩

/-- C7, as the code has it: for every sentence, `topK`, `allowPOS` and stop-word
set, the call returns a list when `topK ≥ 0`, and for every entry of a returned
list the lower-cased text is not a member of the stop-word set; hence no entry
matches case-insensitively a member of the set that is itself in lower case. -/
theorem lowered_text_not_stop_word (ToLower : String → String) (o : RangeOrder)
    (t : TagExtracter) (sentence : String) (topK : Int) (allowPOS : List String)
    (ho : o.Valid) :
    (0 ≤ topK → ∃ tags, ExtractTagsWithPOS ToLower o t sentence topK allowPOS = some tags) ∧
    ∀ tags, ExtractTagsWithPOS ToLower o t sentence topK allowPOS = some tags →
      ∀ e ∈ tags, t.stopWord.IsStopWord (ToLower e.text) = false ∧
        ∀ m ∈ t.stopWord.stopWordMap, ToLower m = m → ToLower e.text ≠ ToLower m := by
  refine ⟨fun hk => ⟨_, ExtractTagsWithPOS_of_nonneg ToLower o t sentence topK allowPOS ho hk⟩,
    ?_⟩
  intro tags h e he
  obtain ⟨_, rfl⟩ := ExtractTagsWithPOS_some ToLower o t sentence topK allowPOS ho tags h
  obtain ⟨k, hk, rfl⟩ := (mem_ranked t _ e).1 (List.mem_of_mem_take he)
  obtain ⟨w, _, _, _, _, hstop⟩ := (mem_survivors ToLower t allowPOS _ k).1 hk
  rw [weighEntry_text]
  refine ⟨by simpa [StopWord.IsStopWord] using hstop, ?_⟩
  intro m hm hlow heq
  rw [hlow] at heq
  exact hstop (heq ▸ hm)

/-- Witness of the amended C7 on the worked example: the stop word "the" is absent
from the result, and no entry lower-cases to a stop word. -/
theorem lowered_text_not_stop_word_witness :
    ExtractTagsWithPOS asciiLower RangeOrder.stored demoExtracter demoSentence 10 [] =
        some [⟨"aa", 3 / 2⟩, ⟨"dd", 1 / 2⟩, ⟨"bb", 1 / 2⟩] ∧
      ∀ e ∈ ([⟨"aa", 3 / 2⟩, ⟨"dd", 1 / 2⟩, ⟨"bb", 1 / 2⟩] : Segments),
        demoExtracter.stopWord.IsStopWord (asciiLower e.text) = false ∧
        ∀ m ∈ demoExtracter.stopWord.stopWordMap, asciiLower m = m →
          asciiLower e.text ≠ asciiLower m := by
  have he : ExtractTagsWithPOS asciiLower RangeOrder.stored demoExtracter demoSentence 10 [] =
      some [⟨"aa", 3 / 2⟩, ⟨"dd", 1 / 2⟩, ⟨"bb", 1 / 2⟩] := by decide!
  exact ⟨he, (lowered_text_not_stop_word asciiLower RangeOrder.stored demoExtracter
    demoSentence 10 [] stored_valid).2 _ he⟩

/-- Counterexample to C7 as stated: with the stop-word set "AB" and the segmenter
output "AB", the result holds the entry "AB", whose text is a member of the
stop-word set (so it matches that member, case-insensitively too); the code looks
up the lower-cased "ab", which is not a member. -/
theorem upper_case_stop_word_survives :
    ExtractTagsWithPOS asciiLower RangeOrder.stored upperStopExtracter "AB" 1 [] =
        some [⟨"AB", 1⟩] ∧
      "AB" ∈ upperStopExtracter.stopWord.stopWordMap ∧
      asciiLower "AB" = "ab" ∧
      upperStopExtracter.stopWord.IsStopWord (asciiLower "AB") = false := by
  refine ⟨by decide!, by decide, by decide, by decide⟩

/-- C8: the result does not depend on the order in which the three range loops
visit the frequency map: for the same segmenter output, idf table, stop-word set,
`topK` and `allowPOS`, any two admissible visiting orders give the same result
(the same list in the same order, or the same panic).  Nor does it depend on how
`sort.Sort` arranges its input: every arrangement of the entries in which no
later entry is `Less` than an earlier one under the reversed comparator is the
list that `sortBy` returns. -/
theorem visiting_order_irrelevant (ToLower : String → String) (o o' : RangeOrder)
    (t : TagExtracter) (sentence : String) (topK : Int) (allowPOS : List String)
    (ho : o.Valid) (ho' : o'.Valid) :
    ExtractTagsWithPOS ToLower o t sentence topK allowPOS =
        ExtractTagsWithPOS ToLower o' t sentence topK allowPOS ∧
      ∀ ws l : Segments, l.Perm ws →
        l.Pairwise (fun a b => reverseLess b a = false) → l = sortBy reverseLess ws := by
  constructor
  · unfold ExtractTagsWithPOS
    rw [extractFromPairs_eq ToLower o t _ topK allowPOS ho,
      extractFromPairs_eq ToLower o' t _ topK allowPOS ho']
  · intro ws l hp hl
    exact sorted_perm_unique l _ (hp.trans (sortBy_perm ws).symm) hl (sortBy_sorted ws)

/-- Witness of C8 on the worked example: visiting the map backwards appends the
entries in another order and gives the same result. -/
theorem visiting_order_irrelevant_witness :
    weighAll demoExtracter (RangeOrder.reversed.weigh [("aa", 1 / 2), ("bb", 1 / 4)]) ≠
        weighAll demoExtracter (RangeOrder.stored.weigh [("aa", 1 / 2), ("bb", 1 / 4)]) ∧
      ExtractTagsWithPOS asciiLower RangeOrder.reversed demoExtracter demoSentence 10 [] =
        ExtractTagsWithPOS asciiLower RangeOrder.stored demoExtracter demoSentence 10 [] :=
  ⟨by decide!, (visiting_order_irrelevant asciiLower RangeOrder.reversed RangeOrder.stored
    demoExtracter demoSentence 10 [] reversed_valid stored_valid).1⟩

/-- C9: for every non-empty `allowPOS`, the call equals the run with an empty
`allowPOS` on the segmenter output restricted to the pairs whose part of speech is
a member of `allowPOS`; and when every pair that passes the length and stop-word
filters has a part of speech outside `allowPOS`, the result for `topK ≥ 0` is the
empty list. -/
theorem allowPOS_restricts_stream (ToLower : String → String) (o : RangeOrder)
    (t : TagExtracter) (sentence : String) (topK : Int) (allowPOS : List String)
    (hP : allowPOS ≠ []) :
    ExtractTagsWithPOS ToLower o t sentence topK allowPOS =
        extractFromPairs ToLower o t
          ((t.seg.Cut sentence true).filter (fun w => decide (w.pos ∈ allowPOS))) topK [] ∧
      (o.Valid → 0 ≤ topK →
        (∀ w ∈ t.seg.Cut sentence true, survives ToLower t [] w ≠ none →
          w.pos ∉ allowPOS) →
        ExtractTagsWithPOS ToLower o t sentence topK allowPOS = some []) := by
  constructor
  · unfold ExtractTagsWithPOS
    exact extractFromPairs_congr ToLower o t _ _ topK allowPOS []
      (survivors_restrict ToLower t allowPOS hP _)
  · intro ho hk hall
    rw [ExtractTagsWithPOS_of_nonneg ToLower o t sentence topK allowPOS ho hk]
    have hs : survivors ToLower t allowPOS (t.seg.Cut sentence true) = [] := by
      rw [survivors_restrict ToLower t allowPOS hP]
      unfold survivors
      rw [List.filterMap_eq_nil_iff]
      intro w hw
      rw [List.mem_filter] at hw
      by_contra hne
      exact hall w hw.1 hne (by simpa using hw.2)
    rw [hs, ranked_nil, List.take_nil]

/-- Witness of C9 on the worked example with `allowPOS = ["r"]`: the only pair
tagged "r" is the stop word "the", so the result is empty although three terms
survive without the restriction. -/
theorem allowPOS_restricts_stream_witness :
    ExtractTagsWithPOS asciiLower RangeOrder.stored demoExtracter demoSentence 10 ["r"] =
        extractFromPairs asciiLower RangeOrder.stored demoExtracter
          ((demoExtracter.seg.Cut demoSentence true).filter
            (fun w => decide (w.pos ∈ ["r"]))) 10 [] ∧
      ExtractTagsWithPOS asciiLower RangeOrder.stored demoExtracter demoSentence 10 ["r"] =
        some [] := by
  have h := allowPOS_restricts_stream asciiLower RangeOrder.stored demoExtracter
    demoSentence 10 ["r"] (by decide)
  exact ⟨h.1, h.2 stored_valid (by decide) (by decide)⟩

/-- C10: `ExtractTags` is `ExtractTagsWithPOS` with an empty `allowPOS`, and no
pair is discarded because of its part of speech: any segmenter output with the
same texts, whatever its part-of-speech tags, gives the same result. -/
theorem extract_tags_allows_all_pos (ToLower : String → String) (o : RangeOrder)
    (t : TagExtracter) (sentence : String) (topK : Int) :
    ExtractTags ToLower o t sentence topK =
        ExtractTagsWithPOS ToLower o t sentence topK [] ∧
      ∀ pairs : List posseg.Segment,
        pairs.map posseg.Segment.text =
            (t.seg.Cut sentence true).map posseg.Segment.text →
          extractFromPairs ToLower o t pairs topK [] =
            ExtractTags ToLower o t sentence topK := by
  refine ⟨rfl, ?_⟩
  intro pairs hp
  unfold ExtractTags ExtractTagsWithPOS defaultAllowPOS
  apply extractFromPairs_congr
  rw [survivors_of_texts, survivors_of_texts, hp]

/-! ## Further lemmas on weights and proportions -/

theorem weighEntry_weight (t : TagExtracter) (k : String) (v : ℚ) :
    (weighEntry t k v).weight = fmul (idfOrMedian t k) v := by
  unfold weighEntry idfOrMedian
  cases t.idf.Frequency k <;> rfl

theorem proportion_nonneg (ws : List String) (k : String) : 0 ≤ proportion ws k := by
  unfold proportion
  exact fdiv_nonneg _ _ (Nat.cast_nonneg _) (Nat.cast_nonneg _)

theorem proportion_pos (ws : List String) (k : String) (hk : k ∈ ws)
    (hlen : ws.length ≤ 2 ^ 53) : 0 < proportion ws k := by
  unfold proportion fdiv
  apply round64_pos
  have hc : 1 ≤ ws.count k := List.count_pos_iff.2 hk
  have hl : 0 < ws.length := List.length_pos_of_mem hk
  have hc' : (1 : ℚ) ≤ (ws.count k : ℚ) := by exact_mod_cast hc
  have hl' : (0 : ℚ) < (ws.length : ℚ) := by exact_mod_cast hl
  have hlen' : (ws.length : ℚ) ≤ (2 : ℚ) ^ (53 : ℕ) := by exact_mod_cast hlen
  rw [le_div_iff₀ hl']
  calc (2 : ℚ) ^ (-1074 : ℤ) * (ws.length : ℚ)
      ≤ (2 : ℚ) ^ (-1074 : ℤ) * (2 : ℚ) ^ (53 : ℕ) :=
        mul_le_mul_of_nonneg_left hlen' (le_of_lt (zpow_pos (by norm_num) _))
    _ = (2 : ℚ) ^ (-1021 : ℤ) := by
        rw [← zpow_natCast, ← zpow_add₀ (by norm_num)]
        norm_num
    _ ≤ (2 : ℚ) ^ (0 : ℤ) := zpow_le_zpow_right₀ (by norm_num) (by norm_num)
    _ = 1 := zpow_zero _
    _ ≤ (ws.count k : ℚ) := hc'

theorem proportion_le_one (ws : List String) (k : String) : proportion ws k ≤ 1 := by
  unfold proportion fdiv
  have hle : (ws.count k : ℚ) ≤ (ws.length : ℚ) := by
    exact_mod_cast List.count_le_length k ws
  rcases Nat.eq_zero_or_pos (ws.count k) with h0 | hpos
  · rw [h0]
    simp only [Nat.cast_zero, zero_div, round64_zero]
    norm_num
  · have hc' : (0 : ℚ) < (ws.count k : ℚ) := by exact_mod_cast hpos
    have hl' : (0 : ℚ) < (ws.length : ℚ) := lt_of_lt_of_le hc' hle
    exact round64_le_one _ (div_pos hc' hl') ((div_le_one hl').2 hle)

theorem totalFreq_eq (ToLower : String → String) (o : RangeOrder) (t : TagExtracter)
    (pairs : List posseg.Segment) (allowPOS : List String) (ho : o.Valid) :
    totalFreq ToLower o t pairs allowPOS =
      ((survivors ToLower t allowPOS pairs).length : ℚ) := by
  unfold totalFreq
  rw [countFreq_eq, sumFreq_perm _ _ (ho _).1, sum_tally]
  simp

theorem normalizedFreq_eq (ToLower : String → String) (o : RangeOrder) (t : TagExtracter)
    (pairs : List posseg.Segment) (allowPOS : List String) (ho : o.Valid) :
    normalizedFreq ToLower o t pairs allowPOS =
      ((survivors ToLower t allowPOS pairs).foldl addWord []).map
        (fun e => (e.1, fdiv e.2 ((survivors ToLower t allowPOS pairs).length : ℚ))) := by
  unfold normalizedFreq normVisits
  rw [totalFreq_eq ToLower o t pairs allowPOS ho, countFreq_eq]
  exact normalize_eq _ _ _ (ho _).2.1 (tally_nodup _ [] (by simp))

/-! ## The claims, continued -/

/-- C11, as the code has it: for every sentence, `topK ≥ 0` and `allowPOS`, and
every idf table whose weights and median are non-negative, the call returns a
list in which every entry has a non-negative weight. -/
theorem weight_nonneg_of_idf_nonneg (ToLower : String → String) (o : RangeOrder)
    (t : TagExtracter) (sentence : String) (topK : Int) (allowPOS : List String)
    (ho : o.Valid) (hk : 0 ≤ topK)
    (hidf : ∀ k w, t.idf.Frequency k = some w → 0 ≤ w) (hmed : 0 ≤ t.idf.median) :
    ∃ tags, ExtractTagsWithPOS ToLower o t sentence topK allowPOS = some tags ∧
      ∀ e ∈ tags, 0 ≤ e.weight := by
  refine ⟨_, ExtractTagsWithPOS_of_nonneg ToLower o t sentence topK allowPOS ho hk, ?_⟩
  intro e he
  obtain ⟨k, hks, rfl⟩ := (mem_ranked t _ e).1 (List.mem_of_mem_take he)
  rw [weighEntry_weight]
  have hw : 0 ≤ idfOrMedian t k := by
    unfold idfOrMedian
    cases hf : t.idf.Frequency k with
    | none => exact hmed
    | some w => exact hidf k w hf
  exact fmul_nonneg _ _ hw (proportion_nonneg _ k)

/-- Witness of the amended C11 on the worked example: the idf weight 3 and the
median 2 are non-negative, and so are the weights 3/2, 1/2, 1/2. -/
theorem weight_nonneg_of_idf_nonneg_witness :
    ∃ tags, ExtractTagsWithPOS asciiLower RangeOrder.stored demoExtracter demoSentence 10 [] =
        some tags ∧
      tags = [⟨"aa", 3 / 2⟩, ⟨"dd", 1 / 2⟩, ⟨"bb", 1 / 2⟩] ∧
      ∀ e ∈ tags, 0 ≤ e.weight := by
  obtain ⟨tags, h, hp⟩ := weight_nonneg_of_idf_nonneg asciiLower RangeOrder.stored
    demoExtracter demoSentence 10 [] stored_valid (by decide)
    (by
      intro k w hf
      have hf' : (if "aa" = k then some (3 : ℚ) else none) = some w := hf
      by_cases hk : "aa" = k
      · rw [if_pos hk] at hf'
        rw [← Option.some.inj hf']
        norm_num
      · rw [if_neg hk] at hf'
        cases hf')
    (by
      show (0 : ℚ) ≤ 2
      norm_num)
  have he : ExtractTagsWithPOS asciiLower RangeOrder.stored demoExtracter demoSentence 10 [] =
      some [⟨"aa", 3 / 2⟩, ⟨"dd", 1 / 2⟩, ⟨"bb", 1 / 2⟩] := by decide!
  exact ⟨tags, h, Option.some.inj (h.symm.trans he), hp⟩

/-- Counterexample to C11 as stated: with the idf weight -1 for "aa" and the
segmenter output "aa", the result holds the entry "aa" with the negative weight
`-1 * (1 / 1)`. -/
theorem negative_idf_gives_negative_weight :
    ExtractTagsWithPOS asciiLower RangeOrder.stored negativeIdfExtracter "aa" 1 [] =
        some [⟨"aa", -1⟩] ∧ (⟨"aa", -1⟩ : Segment).weight < 0 := by
  refine ⟨by decide!, by decide!⟩

/-- C12, as the code has it: for every sentence, `topK ≥ 0` and `allowPOS`, the call
returns a list in which every entry whose text is absent from the idf table weighs
the `float64` product `median * (count / total)`, `count` being the number of
surviving pairs with that trimmed text and `total` the number of all surviving
pairs.  This weight is never negative when the median is not, and it is strictly
positive whenever the exact product of the median and the stored proportion is
at least `2 ^ (-1074)`, the least positive `float64`; a smaller product can
underflow to 0. -/
theorem absent_term_weight (ToLower : String → String) (o : RangeOrder)
    (t : TagExtracter) (sentence : String) (topK : Int) (allowPOS : List String)
    (ho : o.Valid) (hk : 0 ≤ topK) :
    ∃ tags, ExtractTagsWithPOS ToLower o t sentence topK allowPOS = some tags ∧
      ∀ e ∈ tags, t.idf.Frequency e.text = none →
        e.weight = fmul t.idf.median
          (fdiv ((survivors ToLower t allowPOS (t.seg.Cut sentence true)).count e.text : ℚ)
            ((survivors ToLower t allowPOS (t.seg.Cut sentence true)).length : ℚ)) ∧
        (0 ≤ t.idf.median → 0 ≤ e.weight) ∧
        ((2 : ℚ) ^ (-1074 : ℤ) ≤ t.idf.median *
            fdiv ((survivors ToLower t allowPOS (t.seg.Cut sentence true)).count e.text : ℚ)
              ((survivors ToLower t allowPOS (t.seg.Cut sentence true)).length : ℚ) →
          0 < e.weight) := by
  refine ⟨_, ExtractTagsWithPOS_of_nonneg ToLower o t sentence topK allowPOS ho hk, ?_⟩
  intro e he hf
  obtain ⟨k, hks, rfl⟩ := (mem_ranked t _ e).1 (List.mem_of_mem_take he)
  rw [weighEntry_text] at hf ⊢
  have hw : (weighEntry t k
        (proportion (survivors ToLower t allowPOS (t.seg.Cut sentence true)) k)).weight =
      fmul t.idf.median
        (proportion (survivors ToLower t allowPOS (t.seg.Cut sentence true)) k) := by
    rw [weighEntry_weight]
    unfold idfOrMedian
    rw [hf]
  refine ⟨hw, fun hm => ?_, fun hp => ?_⟩
  · rw [hw]
    exact fmul_nonneg _ _ hm (proportion_nonneg _ k)
  · rw [hw]
    exact round64_pos _ hp

/-- Witness of the amended C12 on the worked example: "dd" is absent from the idf
table, is one of the four surviving words and the median is 2, so its entry
weighs the `float64` product of 2 and 1/4, which is 1/2 and positive. -/
theorem absent_term_weight_witness :
    ExtractTagsWithPOS asciiLower RangeOrder.stored demoExtracter demoSentence 10 [] =
        some [⟨"aa", 3 / 2⟩, ⟨"dd", 1 / 2⟩, ⟨"bb", 1 / 2⟩] ∧
      survivors asciiLower demoExtracter [] demoPairs = ["aa", "bb", "aa", "dd"] ∧
      (1 / 2 : ℚ) = fmul 2 (fdiv ((["aa", "bb", "aa", "dd"].count "dd" : Nat) : ℚ)
        ((["aa", "bb", "aa", "dd"].length : Nat) : ℚ)) ∧
      (0 : ℚ) < 1 / 2 := by
  obtain ⟨tags, h, hall⟩ := absent_term_weight asciiLower RangeOrder.stored demoExtracter
    demoSentence 10 [] stored_valid (by decide)
  have he : ExtractTagsWithPOS asciiLower RangeOrder.stored demoExtracter demoSentence 10 [] =
      some [⟨"aa", 3 / 2⟩, ⟨"dd", 1 / 2⟩, ⟨"bb", 1 / 2⟩] := by decide!
  have hs : survivors asciiLower demoExtracter [] demoPairs = ["aa", "bb", "aa", "dd"] := by
    decide
  have ht : tags = [⟨"aa", 3 / 2⟩, ⟨"dd", 1 / 2⟩, ⟨"bb", 1 / 2⟩] :=
    Option.some.inj (h.symm.trans he)
  subst ht
  have hc : demoExtracter.seg.Cut demoSentence true = demoPairs := by decide
  have := hall ⟨"dd", 1 / 2⟩ (by simp) (by decide)
  rw [hc, hs] at this
  exact ⟨he, hs, this.1, this.2.2 (by decide!)⟩

/-- Counterexample to C12 as stated: the median `2 ^ (-1074)` is positive and "aa"
and "bb" are absent from the idf table, each being one of two surviving words;
the product `2 ^ (-1074) * 0.5` underflows and both entries weigh 0. -/
theorem tiny_median_underflows :
    0 < tinyMedianExtracter.idf.median ∧
      tinyMedianExtracter.idf.Frequency "aa" = none ∧
      ExtractTagsWithPOS asciiLower RangeOrder.stored tinyMedianExtracter "aa bb" 2 [] =
        some [⟨"bb", 0⟩, ⟨"aa", 0⟩] ∧
      ¬ (0 < (⟨"aa", 0⟩ : Segment).weight) := by
  refine ⟨by decide!, by decide, by decide!, by decide!⟩

/-- C13: when no pair survives the filters, then for every `topK ≥ 0` the call
returns the empty list: the frequency map is empty, `total` is zero, and the
normalisation loop visits no entry, so no division by `total` is performed. -/
theorem empty_when_nothing_survives (ToLower : String → String) (o : RangeOrder)
    (t : TagExtracter) (sentence : String) (topK : Int) (allowPOS : List String)
    (ho : o.Valid) (hk : 0 ≤ topK)
    (hs : survivors ToLower t allowPOS (t.seg.Cut sentence true) = []) :
    ExtractTagsWithPOS ToLower o t sentence topK allowPOS = some [] ∧
      countFreq ToLower t allowPOS (t.seg.Cut sentence true) = [] ∧
      totalFreq ToLower o t (t.seg.Cut sentence true) allowPOS = 0 ∧
      normVisits ToLower o t (t.seg.Cut sentence true) allowPOS = [] := by
  have hm : countFreq ToLower t allowPOS (t.seg.Cut sentence true) = [] := by
    rw [countFreq_eq, hs]
    rfl
  refine ⟨?_, hm, ?_, ?_⟩
  · rw [ExtractTagsWithPOS_of_nonneg ToLower o t sentence topK allowPOS ho hk, hs,
      ranked_nil, List.take_nil]
  · rw [totalFreq_eq ToLower o t _ allowPOS ho, hs]
    simp
  · unfold normVisits
    rw [hm]
    exact (ho []).2.1.eq_nil

/-- Witness of C13 on the worked example: the segmenter delivers nothing for the
empty sentence, and with `allowPOS = ["r"]` every pair of `demoSentence` is
discarded. -/
theorem empty_when_nothing_survives_witness :
    ExtractTagsWithPOS asciiLower RangeOrder.stored demoExtracter "" 10 [] = some [] ∧
      ExtractTagsWithPOS asciiLower RangeOrder.stored demoExtracter demoSentence 10 ["r"] =
        some [] ∧
      normVisits asciiLower RangeOrder.stored demoExtracter
        (demoExtracter.seg.Cut demoSentence true) ["r"] = [] :=
  ⟨(empty_when_nothing_survives asciiLower RangeOrder.stored demoExtracter "" 10 []
      stored_valid (by decide) (by decide)).1,
    (empty_when_nothing_survives asciiLower RangeOrder.stored demoExtracter demoSentence 10
      ["r"] stored_valid (by decide) (by decide)).1,
    (empty_when_nothing_survives asciiLower RangeOrder.stored demoExtracter demoSentence 10
      ["r"] stored_valid (by decide) (by decide)).2.2.2⟩

/-- C14: for a segmenter output that consists of the word "测试" five times, an
empty stop-word set, an idf table that maps "测试" to 2, no part-of-speech
restriction and any `topK ≥ 1`, the call returns exactly the one-element list
`[{"测试", 2}]`. -/
theorem repeated_word_example (ToLower : String → String) (o : RangeOrder)
    (t : TagExtracter) (sentence : String) (topK : Int) (ho : o.Valid) (hk : 1 ≤ topK)
    (hcut : (t.seg.Cut sentence true).map posseg.Segment.text = List.replicate 5 "测试")
    (hstop : t.stopWord.stopWordMap = []) (hidf : t.idf.Frequency "测试" = some 2) :
    ExtractTagsWithPOS ToLower o t sentence topK [] = some [⟨"测试", 2⟩] := by
  rw [ExtractTagsWithPOS_of_nonneg ToLower o t sentence topK [] ho (by omega)]
  have hs : survivors ToLower t [] (t.seg.Cut sentence true) = List.replicate 5 "测试" := by
    rw [survivors_of_texts, hcut]
    have htrim : TrimSpace "测试" = "测试" := by decide
    have hlen : ¬ ("测试".length < 2) := by decide
    have hg : survives ToLower t [] ⟨"测试", ""⟩ = some "测试" := by
      unfold survives
      simp only [htrim, hstop, List.not_mem_nil, if_false, hlen, ne_eq, not_true_eq_false,
        false_and]
    simp [List.replicate, hg]
  have hd : (List.replicate 5 "测试").dedup = ["测试"] := by decide
  have hp : proportion (List.replicate 5 "测试") "测试" = 1 := by decide!
  have hr : ranked t (List.replicate 5 "测试") = [⟨"测试", 2⟩] := by
    unfold ranked
    rw [hd]
    simp only [List.map_cons, List.map_nil, hp]
    have hw : weighEntry t "测试" 1 = ⟨"测试", 2⟩ := by
      have h21 : fmul 2 1 = 2 := by decide!
      unfold weighEntry
      rw [hidf]
      simp only [h21]
    rw [hw]
    rfl
  rw [hs, hr]
  have hn : 1 ≤ topK.toNat := by omega
  rw [List.take_of_length_le (by simpa using hn)]

/-- Witness of C14: the extractor of the example, with `topK = 3`. -/
theorem repeated_word_example_witness :
    ExtractTagsWithPOS asciiLower RangeOrder.stored repeatedWordExtracter
        "测试测试测试测试测试" 3 [] = some [⟨"测试", 2⟩] :=
  repeated_word_example asciiLower RangeOrder.stored repeatedWordExtracter
    "测试测试测试测试测试" 3 stored_valid (by decide) (by decide) (by decide) (by decide)

/-- C15: for every sentence and all integers `0 ≤ k ≤ k'`, both calls return a
list, and the list for `k` is the first `k` entries of the list for `k'` (the
whole of it when `k` is at least its length): truncation drops a suffix only. -/
theorem smaller_topK_leading_part (ToLower : String → String) (o : RangeOrder)
    (t : TagExtracter) (sentence : String) (k k' : Int) (allowPOS : List String)
    (ho : o.Valid) (hk : 0 ≤ k) (hkk : k ≤ k') :
    ∃ tags tags',
      ExtractTagsWithPOS ToLower o t sentence k allowPOS = some tags ∧
      ExtractTagsWithPOS ToLower o t sentence k' allowPOS = some tags' ∧
      tags = tags'.take k.toNat ∧
      ((tags'.length : Int) ≤ k → tags = tags') ∧
      ∃ rest, tags' = tags ++ rest := by
  refine ⟨_, _, ExtractTagsWithPOS_of_nonneg ToLower o t sentence k allowPOS ho hk,
    ExtractTagsWithPOS_of_nonneg ToLower o t sentence k' allowPOS ho (le_trans hk hkk), ?_⟩
  have hmin : min k.toNat k'.toNat = k.toNat := by
    apply Nat.min_eq_left
    omega
  have htake : List.take k.toNat
        (ranked t (survivors ToLower t allowPOS (t.seg.Cut sentence true))) =
      List.take k.toNat (List.take k'.toNat
        (ranked t (survivors ToLower t allowPOS (t.seg.Cut sentence true)))) := by
    rw [List.take_take, hmin]
  refine ⟨htake, ?_, ?_⟩
  · intro hlen
    rw [htake]
    apply List.take_of_length_le
    omega
  · refine ⟨List.drop k.toNat (List.take k'.toNat
      (ranked t (survivors ToLower t allowPOS (t.seg.Cut sentence true)))), ?_⟩
    rw [htake, List.take_append_drop]

/-- Witness of C15 on the worked example: the list for `topK = 1` is the first
entry of the list for `topK = 2`. -/
theorem smaller_topK_leading_part_witness :
    ExtractTagsWithPOS asciiLower RangeOrder.stored demoExtracter demoSentence 1 [] =
        some [⟨"aa", 3 / 2⟩] ∧
      ExtractTagsWithPOS asciiLower RangeOrder.stored demoExtracter demoSentence 2 [] =
        some [⟨"aa", 3 / 2⟩, ⟨"dd", 1 / 2⟩] ∧
      ([⟨"aa", 3 / 2⟩] : Segments) =
        ([⟨"aa", 3 / 2⟩, ⟨"dd", 1 / 2⟩] : Segments).take (1 : Int).toNat := by
  obtain ⟨tags, tags', h, h', ht, _, _⟩ := smaller_topK_leading_part asciiLower
    RangeOrder.stored demoExtracter demoSentence 1 2 [] stored_valid (by decide) (by decide)
  have he : ExtractTagsWithPOS asciiLower RangeOrder.stored demoExtracter demoSentence 1 [] =
      some [⟨"aa", 3 / 2⟩] := by decide!
  have he' : ExtractTagsWithPOS asciiLower RangeOrder.stored demoExtracter demoSentence 2 [] =
      some [⟨"aa", 3 / 2⟩, ⟨"dd", 1 / 2⟩] := by decide!
  have e1 : tags = [⟨"aa", 3 / 2⟩] := Option.some.inj (h.symm.trans he)
  have e2 : tags' = [⟨"aa", 3 / 2⟩, ⟨"dd", 1 / 2⟩] := Option.some.inj (h'.symm.trans he')
  rw [e1, e2] at ht
  exact ⟨he, he', ht⟩

theorem Less_eq (ss : Segments) (i j : Nat) (hi : i < ss.length) (hj : j < ss.length) :
    ss.Less i j = some (lessEntry (ss.get ⟨i, hi⟩) (ss.get ⟨j, hj⟩)) := by
  unfold Segments.Less
  rw [List.getElem?_eq_getElem hi, List.getElem?_eq_getElem hj]
  rfl

theorem rankKey_ne_of_text_ne (a b : Segment) (h : a.text ≠ b.text) :
    rankKey a ≠ rankKey b := by
  intro he
  exact h (congrArg Segment.text (rankKey_injective he))

/-- C16: on any list whose entries have pairwise distinct texts, `Segments.Less`
is a strict total order on the indices: `Less(i, i)` is false, `Less(i, j)` and
`Less(j, k)` give `Less(i, k)`, and for two different indices exactly one of
`Less(i, j)` and `Less(j, i)` is true. -/
theorem less_strict_total_order (ss : Segments) (hd : (ss.map Segment.text).Nodup) :
    (∀ i, i < ss.length → ss.Less i i = some false) ∧
    (∀ i j k, i < ss.length → j < ss.length → k < ss.length →
      ss.Less i j = some true → ss.Less j k = some true → ss.Less i k = some true) ∧
    (∀ i j, i < ss.length → j < ss.length → i ≠ j →
      (ss.Less i j = some true ∧ ss.Less j i = some false) ∨
      (ss.Less i j = some false ∧ ss.Less j i = some true)) := by
  refine ⟨?_, ?_, ?_⟩
  · intro i hi
    rw [Less_eq ss i i hi hi]
    congr 1
    rw [lessEntry_false_iff]
  · intro i j k hi hj hk hij hjk
    rw [Less_eq ss i j hi hj] at hij
    rw [Less_eq ss j k hj hk] at hjk
    rw [Less_eq ss i k hi hk]
    have h1 := (lessEntry_iff _ _).1 (Option.some.inj hij)
    have h2 := (lessEntry_iff _ _).1 (Option.some.inj hjk)
    congr 1
    exact (lessEntry_iff _ _).2 (lt_trans h1 h2)
  · intro i j hi hj hne
    rw [Less_eq ss i j hi hj, Less_eq ss j i hj hi]
    have htext : (ss.get ⟨i, hi⟩).text ≠ (ss.get ⟨j, hj⟩).text := by
      intro he
      have hpw : ss.Pairwise (fun a b => a.text ≠ b.text) := List.pairwise_map.1 hd
      rcases Nat.lt_or_gt_of_ne hne with hlt | hgt
      · exact List.pairwise_iff_get.1 hpw ⟨i, hi⟩ ⟨j, hj⟩ hlt he
      · exact List.pairwise_iff_get.1 hpw ⟨j, hj⟩ ⟨i, hi⟩ hgt he.symm
    rcases lt_or_gt_of_ne (rankKey_ne_of_text_ne _ _ htext) with hlt | hgt
    · left
      refine ⟨congrArg some ((lessEntry_iff _ _).2 hlt), congrArg some ?_⟩
      rw [lessEntry_false_iff]
      exact le_of_lt hlt
    · right
      refine ⟨congrArg some ?_, congrArg some ((lessEntry_iff _ _).2 hgt)⟩
      rw [lessEntry_false_iff]
      exact le_of_lt hgt

/-- Witness of C16 on the three entries of the worked example: "bb" and "dd" have
the same weight and are ordered by their texts, and both are `Less` than "aa". -/
theorem less_strict_total_order_witness :
    Segments.Less [⟨"aa", 3 / 2⟩, ⟨"dd", 1 / 2⟩, ⟨"bb", 1 / 2⟩] 2 1 = some true ∧
      Segments.Less [⟨"aa", 3 / 2⟩, ⟨"dd", 1 / 2⟩, ⟨"bb", 1 / 2⟩] 1 0 = some true ∧
      Segments.Less [⟨"aa", 3 / 2⟩, ⟨"dd", 1 / 2⟩, ⟨"bb", 1 / 2⟩] 2 0 = some true ∧
      Segments.Less [⟨"aa", 3 / 2⟩, ⟨"dd", 1 / 2⟩, ⟨"bb", 1 / 2⟩] 1 2 = some false ∧
      Segments.Less [⟨"aa", 3 / 2⟩, ⟨"dd", 1 / 2⟩, ⟨"bb", 1 / 2⟩] 1 1 = some false := by
  have h := less_strict_total_order [⟨"aa", 3 / 2⟩, ⟨"dd", 1 / 2⟩, ⟨"bb", 1 / 2⟩]
    (by decide)
  have h21 : Segments.Less [⟨"aa", 3 / 2⟩, ⟨"dd", 1 / 2⟩, ⟨"bb", 1 / 2⟩] 2 1 = some true := by
    decide!
  have h10 : Segments.Less [⟨"aa", 3 / 2⟩, ⟨"dd", 1 / 2⟩, ⟨"bb", 1 / 2⟩] 1 0 = some true := by
    decide!
  have h12 : Segments.Less [⟨"aa", 3 / 2⟩, ⟨"dd", 1 / 2⟩, ⟨"bb", 1 / 2⟩] 1 2 = some false := by
    rcases h.2.2 1 2 (by decide) (by decide) (by decide) with h' | h'
    · rw [h21] at h'
      exact absurd h'.2 (by decide)
    · exact h'.1
  exact ⟨h21, h10, h.2.1 2 1 0 (by decide) (by decide) (by decide) h21 h10, h12,
    h.1 1 (by decide)⟩

theorem countFreq_keys_mem (ToLower : String → String) (t : TagExtracter)
    (allowPOS : List String) (pairs : List posseg.Segment) (k : String) :
    k ∈ (countFreq ToLower t allowPOS pairs).map Prod.fst ↔
      k ∈ survivors ToLower t allowPOS pairs := by
  rw [countFreq_eq, tally_keys_mem]

theorem take_ranked_of_le (t : TagExtracter) (ws : List String) (topK : Int)
    (hk : (ws.dedup.length : Int) ≤ topK) :
    (ranked t ws).take topK.toNat = ranked t ws := by
  apply List.take_of_length_le
  rw [ranked_length]
  omega

/-- C17: the frequency map is keyed by the trimmed word in its original case (its
keys are exactly the surviving words), so two different surviving words, in
particular two that differ only in letter case such as "Hello" and "hello", are
never merged: when `topK` is at least the number of distinct surviving terms, the
returned list holds one entry for each of the two, and each entry is weighted
from the count of its own word: its weight is the `float64` product of the idf
weight of the word (the median when the table lacks it) and the `float64`
quotient of the word's own count by `total`. -/
theorem distinct_words_separate_entries (ToLower : String → String) (o : RangeOrder)
    (t : TagExtracter) (sentence : String) (topK : Int) (allowPOS : List String)
    (k₁ k₂ : String) (ho : o.Valid)
    (hk : ((survivors ToLower t allowPOS (t.seg.Cut sentence true)).dedup.length : Int) ≤ topK)
    (h₁ : k₁ ∈ survivors ToLower t allowPOS (t.seg.Cut sentence true))
    (h₂ : k₂ ∈ survivors ToLower t allowPOS (t.seg.Cut sentence true))
    (hne : k₁ ≠ k₂) :
    ∃ tags, ExtractTagsWithPOS ToLower o t sentence topK allowPOS = some tags ∧
      (∀ k, k ∈ (countFreq ToLower t allowPOS (t.seg.Cut sentence true)).map Prod.fst ↔
        k ∈ survivors ToLower t allowPOS (t.seg.Cut sentence true)) ∧
      ∃ e₁ ∈ tags, ∃ e₂ ∈ tags, e₁ ≠ e₂ ∧ e₁.text = k₁ ∧ e₂.text = k₂ ∧
        e₁.weight = fmul (idfOrMedian t k₁)
          (fdiv ((survivors ToLower t allowPOS (t.seg.Cut sentence true)).count k₁ : ℚ)
            ((survivors ToLower t allowPOS (t.seg.Cut sentence true)).length : ℚ)) ∧
        e₂.weight = fmul (idfOrMedian t k₂)
          (fdiv ((survivors ToLower t allowPOS (t.seg.Cut sentence true)).count k₂ : ℚ)
            ((survivors ToLower t allowPOS (t.seg.Cut sentence true)).length : ℚ)) ∧
        (∀ e ∈ tags, e.text = k₁ → e = e₁) ∧ (∀ e ∈ tags, e.text = k₂ → e = e₂) := by
  have hk0 : 0 ≤ topK := le_trans (Int.natCast_nonneg _) hk
  refine ⟨_, ExtractTagsWithPOS_of_nonneg ToLower o t sentence topK allowPOS ho hk0,
    fun k => countFreq_keys_mem ToLower t allowPOS _ k, ?_⟩
  rw [take_ranked_of_le t _ topK hk]
  have hnd := ranked_texts_nodup t (survivors ToLower t allowPOS (t.seg.Cut sentence true))
  have hm₁ := (mem_ranked t _ _).2 ⟨k₁, h₁, rfl⟩
  have hm₂ := (mem_ranked t _ _).2 ⟨k₂, h₂, rfl⟩
  refine ⟨_, hm₁, _, hm₂, ?_, weighEntry_text t k₁ _, weighEntry_text t k₂ _,
    weighEntry_weight t k₁ _, weighEntry_weight t k₂ _, ?_, ?_⟩
  · intro he
    apply hne
    have := congrArg Segment.text he
    rwa [weighEntry_text, weighEntry_text] at this
  · intro e he het
    exact List.inj_on_of_nodup_map hnd he hm₁ (by rw [het, weighEntry_text])
  · intro e he het
    exact List.inj_on_of_nodup_map hnd he hm₂ (by rw [het, weighEntry_text])

/-- Witness of C17: "Hello" (twice) and "hello" (once) lower-case to the same
string and get separate entries, weighted from the counts 2 and 1 of three: the
`float64` products of the median 3 with the `float64` quotients 2/3 and 1/3. -/
theorem distinct_words_separate_entries_witness :
    asciiLower "Hello" = asciiLower "hello" ∧
      ExtractTagsWithPOS asciiLower RangeOrder.stored letterCaseExtracter "Hello hello Hello"
        5 [] = some [⟨"Hello", 2⟩, ⟨"hello", 1⟩] ∧
      fdiv 2 3 ≠ 2 / 3 ∧
      ∃ tags, ExtractTagsWithPOS asciiLower RangeOrder.stored letterCaseExtracter
          "Hello hello Hello" 5 [] = some tags ∧
        ∃ e₁ ∈ tags, ∃ e₂ ∈ tags, e₁ ≠ e₂ ∧ e₁.text = "Hello" ∧ e₂.text = "hello" ∧
          e₁.weight = fmul (idfOrMedian letterCaseExtracter "Hello")
            (fdiv ((survivors asciiLower letterCaseExtracter []
                (letterCaseExtracter.seg.Cut "Hello hello Hello" true)).count "Hello" : ℚ)
              ((survivors asciiLower letterCaseExtracter []
                (letterCaseExtracter.seg.Cut "Hello hello Hello" true)).length : ℚ)) := by
  obtain ⟨tags, h, _, e₁, he₁, e₂, he₂, hne, ht₁, ht₂, hw₁, _⟩ :=
    distinct_words_separate_entries asciiLower RangeOrder.stored letterCaseExtracter
      "Hello hello Hello" 5 [] "Hello" "hello" stored_valid (by decide) (by decide)
      (by decide) (by decide)
  exact ⟨by decide, by decide!, by decide!, tags, h, e₁, he₁, e₂, he₂, hne, ht₁, ht₂, hw₁⟩

/-- C18: each loader replaces only the references it is documented to replace.
`LoadIdf` sets the idf table and leaves the segmenter and the stop-word set as they
were; `LoadStopWords` sets the stop-word set and leaves the segmenter and the idf
table as they were; `LoadDictionary` sets the segmenter and sets the stop-word set
to a fresh `NewStopWord()`, also after an earlier `LoadStopWords`, and leaves the
idf table as it was. -/
theorem loaders_replace_documented_refs (lib : Library) (t : ExtracterRefs)
    (fileName : String) :
    ((LoadIdf lib t fileName).1.seg = t.seg ∧
      (LoadIdf lib t fileName).1.stopWord = t.stopWord ∧
      (LoadIdf lib t fileName).1.idf = some (lib.idfLoadDictionary lib.NewIdf fileName).1 ∧
      (LoadIdf lib t fileName).2 = (lib.idfLoadDictionary lib.NewIdf fileName).2) ∧
    ((LoadStopWords lib t fileName).1.seg = t.seg ∧
      (LoadStopWords lib t fileName).1.idf = t.idf ∧
      (LoadStopWords lib t fileName).1.stopWord =
        some (lib.stopLoadDictionary lib.NewStopWord fileName).1 ∧
      (LoadStopWords lib t fileName).2 =
        (lib.stopLoadDictionary lib.NewStopWord fileName).2) ∧
    ((LoadDictionary lib t fileName).1.idf = t.idf ∧
      (LoadDictionary lib t fileName).1.seg =
        some (lib.segLoadDictionary lib.newSegmenter fileName).1 ∧
      (LoadDictionary lib t fileName).1.stopWord = some lib.NewStopWord ∧
      (LoadDictionary lib t fileName).2 =
        (lib.segLoadDictionary lib.newSegmenter fileName).2) ∧
    ∀ stopFile : String,
      (LoadDictionary lib (LoadStopWords lib t stopFile).1 fileName).1.stopWord =
          some lib.NewStopWord ∧
        (LoadDictionary lib (LoadStopWords lib t stopFile).1 fileName).1.idf = t.idf :=
  ⟨⟨rfl, rfl, rfl, rfl⟩, ⟨rfl, rfl, rfl, rfl⟩, ⟨rfl, rfl, rfl, rfl⟩, fun _ => ⟨rfl, rfl⟩⟩

/-- C19: for every sentence, `topK ≥ 0` and `allowPOS`, the call returns a list
whose texts are pairwise distinct and are surviving terms, each the trimmed text
of a pair delivered by the segmenter; when `topK` is at least the number of
distinct surviving terms, the texts are exactly the distinct surviving terms. -/
theorem result_texts_are_surviving_terms (ToLower : String → String) (o : RangeOrder)
    (t : TagExtracter) (sentence : String) (topK : Int) (allowPOS : List String)
    (ho : o.Valid) (hk : 0 ≤ topK) :
    ∃ tags, ExtractTagsWithPOS ToLower o t sentence topK allowPOS = some tags ∧
      (tags.map Segment.text).Nodup ∧
      (∀ x ∈ tags.map Segment.text,
        x ∈ survivors ToLower t allowPOS (t.seg.Cut sentence true) ∧
        ∃ w ∈ t.seg.Cut sentence true, x = TrimSpace w.text) ∧
      (((survivors ToLower t allowPOS (t.seg.Cut sentence true)).dedup.length : Int) ≤ topK →
        (∀ x, x ∈ tags.map Segment.text ↔
          x ∈ survivors ToLower t allowPOS (t.seg.Cut sentence true)) ∧
        (tags.map Segment.text).Perm
          (survivors ToLower t allowPOS (t.seg.Cut sentence true)).dedup) := by
  refine ⟨_, ExtractTagsWithPOS_of_nonneg ToLower o t sentence topK allowPOS ho hk,
    ?_, ?_, ?_⟩
  · exact (ranked_texts_nodup t _).sublist ((List.take_sublist _ _).map _)
  · intro x hx
    obtain ⟨e, he, rfl⟩ := List.mem_map.1 hx
    obtain ⟨k, hks, rfl⟩ := (mem_ranked t _ e).1 (List.mem_of_mem_take he)
    rw [weighEntry_text]
    obtain ⟨w, hw, _, hkw, _, _⟩ := (mem_survivors ToLower t allowPOS _ k).1 hks
    exact ⟨hks, w, hw, hkw⟩
  · intro hlen
    rw [take_ranked_of_le t _ topK hlen]
    have hmem : ∀ x, x ∈ (ranked t
        (survivors ToLower t allowPOS (t.seg.Cut sentence true))).map Segment.text ↔
        x ∈ survivors ToLower t allowPOS (t.seg.Cut sentence true) := by
      intro x
      constructor
      · intro hx
        obtain ⟨e, he, rfl⟩ := List.mem_map.1 hx
        obtain ⟨k, hks, rfl⟩ := (mem_ranked t _ e).1 he
        rw [weighEntry_text]
        exact hks
      · intro hx
        exact List.mem_map.2 ⟨_, (mem_ranked t _ _).2 ⟨x, hx, rfl⟩, weighEntry_text t x _⟩
    refine ⟨hmem, ?_⟩
    exact (List.perm_ext_iff_of_nodup (ranked_texts_nodup t _) (List.nodup_dedup _)).2
      (fun x => by rw [hmem, List.mem_dedup])

/-- Witness of C19 on the worked example: with `topK = 10` the texts are the three
distinct surviving terms, with `topK = 2` two of them. -/
theorem result_texts_are_surviving_terms_witness :
    (∃ tags, ExtractTagsWithPOS asciiLower RangeOrder.stored demoExtracter demoSentence 10 [] =
        some tags ∧ tags.map Segment.text = ["aa", "dd", "bb"] ∧
      (tags.map Segment.text).Perm
        (survivors asciiLower demoExtracter [] (demoExtracter.seg.Cut demoSentence true)).dedup) ∧
    ∃ tags, ExtractTagsWithPOS asciiLower RangeOrder.stored demoExtracter demoSentence 2 [] =
        some tags ∧ tags.map Segment.text = ["aa", "dd"] ∧
      (tags.map Segment.text).Nodup := by
  obtain ⟨tags, h, _, _, hall⟩ := result_texts_are_surviving_terms asciiLower
    RangeOrder.stored demoExtracter demoSentence 10 [] stored_valid (by decide)
  obtain ⟨tags₂, h₂, hnd, _, _⟩ := result_texts_are_surviving_terms asciiLower
    RangeOrder.stored demoExtracter demoSentence 2 [] stored_valid (by decide)
  have he : ExtractTagsWithPOS asciiLower RangeOrder.stored demoExtracter demoSentence 10 [] =
      some [⟨"aa", 3 / 2⟩, ⟨"dd", 1 / 2⟩, ⟨"bb", 1 / 2⟩] := by decide!
  have he₂ : ExtractTagsWithPOS asciiLower RangeOrder.stored demoExtracter demoSentence 2 [] =
      some [⟨"aa", 3 / 2⟩, ⟨"dd", 1 / 2⟩] := by decide!
  have e1 : tags = [⟨"aa", 3 / 2⟩, ⟨"dd", 1 / 2⟩, ⟨"bb", 1 / 2⟩] :=
    Option.some.inj (h.symm.trans he)
  have e2 : tags₂ = [⟨"aa", 3 / 2⟩, ⟨"dd", 1 / 2⟩] := Option.some.inj (h₂.symm.trans he₂)
  exact ⟨⟨tags, h, by rw [e1]; rfl, (hall (by decide)).2⟩, tags₂, h₂, by rw [e2]; rfl, hnd⟩

/-- C20, as the code has it: whenever at least one pair survives the filters (and
fewer than `2 ^ 53` do, the range in which `float64` counts exactly), the
normalisation divisor `total` is the number of surviving pairs, a positive
integer; the counts of the distinct surviving terms sum to exactly `total`; and
after the normalisation loop the frequency map holds, for each distinct
surviving term and for nothing else, the `float64` quotient `count / total`,
which lies in `(0, 1]`.  These rounded quotients need not sum to exactly 1. -/
theorem proportions_in_unit_interval (ToLower : String → String) (o : RangeOrder)
    (t : TagExtracter) (sentence : String) (allowPOS : List String) (ho : o.Valid)
    (hs : survivors ToLower t allowPOS (t.seg.Cut sentence true) ≠ [])
    (hlen : (survivors ToLower t allowPOS (t.seg.Cut sentence true)).length ≤ 2 ^ 53) :
    totalFreq ToLower o t (t.seg.Cut sentence true) allowPOS =
        ((survivors ToLower t allowPOS (t.seg.Cut sentence true)).length : ℚ) ∧
      0 < (survivors ToLower t allowPOS (t.seg.Cut sentence true)).length ∧
      ((survivors ToLower t allowPOS (t.seg.Cut sentence true)).dedup.map
        (fun k => (survivors ToLower t allowPOS (t.seg.Cut sentence true)).count k)).sum =
        (survivors ToLower t allowPOS (t.seg.Cut sentence true)).length ∧
      (∀ e ∈ normalizedFreq ToLower o t (t.seg.Cut sentence true) allowPOS,
        e.2 = fdiv ((survivors ToLower t allowPOS (t.seg.Cut sentence true)).count e.1 : ℚ)
            (totalFreq ToLower o t (t.seg.Cut sentence true) allowPOS) ∧
          0 < e.2 ∧ e.2 ≤ 1) ∧
      ((normalizedFreq ToLower o t (t.seg.Cut sentence true) allowPOS).map Prod.fst).Perm
        (survivors ToLower t allowPOS (t.seg.Cut sentence true)).dedup := by
  have htot := totalFreq_eq ToLower o t (t.seg.Cut sentence true) allowPOS ho
  have hnorm := normalizedFreq_eq ToLower o t (t.seg.Cut sentence true) allowPOS ho
  generalize survivors ToLower t allowPOS (t.seg.Cut sentence true) = ws at *
  have hpos : 0 < ws.length := List.length_pos.2 hs
  refine ⟨htot, hpos, List.sum_map_count_dedup_eq_length ws, ?_, ?_⟩
  · intro e he
    rw [hnorm] at he
    obtain ⟨e₀, he₀, rfl⟩ := List.mem_map.1 he
    have hval : e₀.2 = (ws.count e₀.1 : ℚ) := tally_entry ws e₀ he₀
    have hmem : e₀.1 ∈ ws := (tally_keys_mem ws e₀.1).1 (List.mem_map.2 ⟨e₀, he₀, rfl⟩)
    simp only [htot, hval]
    exact ⟨trivial, proportion_pos ws e₀.1 hmem hlen, proportion_le_one ws e₀.1⟩
  · rw [hnorm, List.map_map]
    exact tally_keys_perm ws

/-- Witness of the amended C20 on the worked example: four pairs survive, `total`
is 4, and the stored proportions of "aa", "bb", "dd" are 1/2, 1/4, 1/4. -/
theorem proportions_in_unit_interval_witness :
    totalFreq asciiLower RangeOrder.stored demoExtracter
        (demoExtracter.seg.Cut demoSentence true) [] = 4 ∧
      normalizedFreq asciiLower RangeOrder.stored demoExtracter
        (demoExtracter.seg.Cut demoSentence true) [] =
          [("aa", 1 / 2), ("bb", 1 / 4), ("dd", 1 / 4)] ∧
      ∀ e ∈ normalizedFreq asciiLower RangeOrder.stored demoExtracter
          (demoExtracter.seg.Cut demoSentence true) [], 0 < e.2 ∧ e.2 ≤ 1 := by
  have h := proportions_in_unit_interval asciiLower RangeOrder.stored demoExtracter
    demoSentence [] stored_valid (by decide) (by decide)
  exact ⟨by decide!, by decide!, fun e he => (h.2.2.2.1 e he).2⟩

/-- Counterexample to C20 as stated: with ten different surviving words every stored
proportion is the `float64` nearest to 1/10, which is not 1/10; the ten stored
proportions sum to more than 1, and added one by one in `float64` they give
`1 - 2 ^ (-53)`, printed 0.9999999999999999. -/
theorem proportions_need_not_sum_to_one :
    (normalizedFreq asciiLower RangeOrder.stored tenWordsExtracter
        (tenWordsExtracter.seg.Cut "w0 w1 w2 w3 w4 w5 w6 w7 w8 w9" true) []).map Prod.snd =
        List.replicate 10 (3602879701896397 / 36028797018963968) ∧
      ((normalizedFreq asciiLower RangeOrder.stored tenWordsExtracter
        (tenWordsExtracter.seg.Cut "w0 w1 w2 w3 w4 w5 w6 w7 w8 w9" true) []).map
          Prod.snd).sum ≠ 1 ∧
      ((normalizedFreq asciiLower RangeOrder.stored tenWordsExtracter
        (tenWordsExtracter.seg.Cut "w0 w1 w2 w3 w4 w5 w6 w7 w8 w9" true) []).map
          Prod.snd).foldl (fun a v => round64 (a + v)) 0 = 1 - 1 / 2 ^ 53 := by
  refine ⟨by decide!, by decide!, by decide!⟩

end analyse
